import Mathlib

/-!
Verification of the rhosy wavetable synthesizer core (src/rhosy.py).

The Python source is shallowly embedded here:
* floating-point values are idealized as elements of a linear ordered field
  (`ℚ` for executable instances, `ℝ` where the wavetable contents matter);
* numpy 1-D arrays are `List α`; elementwise operations check shapes the way
  numpy broadcasting does and return `Except Unit _`, with `.error ()`
  standing for a raised Python exception;
* `Note` and the engine state (`current_notes` dict plus `sustaining` flag)
  are records, with mutation modelled by explicit state passing;
* Python `None`-or-float attributes are `Option α`, and Python truthiness of
  such a value (`if self.release_rate:`) is `truthy`.
-/

namespace Rhosy

/-- Sample rate in sps (rhosy.py line 12). -/
def sample_rate : ℕ := 48000

/-- Blocksize in samples to process (rhosy.py line 17). -/
def blocksize : ℕ := 16

variable {α : Type} [LinearOrderedField α]

/-- Python truthiness of an optional float attribute: `None` is falsy and a
float is truthy exactly when it is nonzero. -/
def truthy : Option α → Bool
  | none => false
  | some x => decide (x ≠ 0)

/-- `np.linspace(a, b, num)` (endpoint=True, the default): `num` evenly spaced
points from `a` to `b`, the `i`-th being `a + i*(b-a)/(num-1)`.  For `num = 1`
numpy returns `[a]`, which the formula also yields since division by zero is
zero in a `DivisionRing`.  Total version for a nonnegative count. -/
def linspaceL (a b : α) (num : ℕ) : List α :=
  (List.range num).map fun i : ℕ => a + (i : α) * ((b - a) / ((num : α) - 1))

/-- `np.linspace` with a possibly negative integer count: numpy raises
`ValueError` when the number of samples is negative. -/
def linspace (a b : α) (num : ℤ) : Except Unit (List α) :=
  if num < 0 then .error () else .ok (linspaceL a b num.toNat)

/-- `ndarray.clip(0, 1)`: elementwise clamp into `[0, 1]`. -/
def clip01 (xs : List α) : List α := xs.map fun x => min (max x 0) 1

/-- numpy elementwise product of two 1-D arrays, with numpy's broadcasting
rule: equal lengths multiply pointwise, a length-1 operand is broadcast,
anything else raises. -/
def mulBlocks (x y : List α) : Except Unit (List α) :=
  if x.length = y.length then .ok (List.zipWith (· * ·) x y)
  else if x.length = 1 then .ok (y.map fun v => x.headD 0 * v)
  else if y.length = 1 then .ok (x.map fun v => v * y.headD 0)
  else .error ()

/-- In-place `out += sound` on 1-D arrays: the output shape is fixed, so only
the right operand may broadcast (length equal to `out` or length 1);
anything else raises. -/
def addBlocks (out sound : List α) : Except Unit (List α) :=
  if sound.length = out.length then .ok (List.zipWith (· + ·) out sound)
  else if sound.length = 1 then .ok (out.map fun v => v + sound.headD 0)
  else .error ()

/-- One sounding note (class `Note`, rhosy.py lines 56-138).
`release_amplitude` is not assigned by `__init__`; it is first assigned by
`release()` and is never read while `release_rate` is `None`, so the record
carries a placeholder value `1` from construction. -/
structure Note (α : Type) where
  t : ℤ
  key : ℕ
  release_rate : Option α
  attack_rate : Option α
  attack_amplitude : α
  release_amplitude : α
  wave_table : List α
  held : Bool
deriving DecidableEq

/-- `Note.__init__` (rhosy.py lines 57-66): `attack_samples = 10 *
sample_rate / 1000` (the comment in the source says 20ms but the value is
10ms, i.e. 480 samples), `attack_rate = 1.0 / attack_samples`.  The wavetable
is looked up in the precomputed bank by key. -/
def Note.init (bank : ℕ → List α) (key : ℕ) : Note α :=
  { t := 0
    key := key
    release_rate := none
    attack_rate := some (1 / (10 * (sample_rate : α) / 1000))
    attack_amplitude := 0
    release_amplitude := 1
    wave_table := bank key
    held := false }

/-- The wrap-around wavetable read of `Note.play` (rhosy.py lines 74-81):
`t_start = t_output % nwave_table`, `t_end = (t_output + frame_count) %
nwave_table`; when `t_start < t_end` the output is the Python slice
`wave_table[t_start:t_end]`, otherwise it is
`np.append(wave_table[t_start:], wave_table[:t_end])`. -/
def extract (wave_table : List α) (t_output frame_count : ℤ) : List α :=
  let nwave_table : ℤ := wave_table.length
  let t_start := t_output % nwave_table
  let t_end := (t_output + frame_count) % nwave_table
  if t_start < t_end then
    (wave_table.drop t_start.toNat).take (t_end - t_start).toNat
  else
    wave_table.drop t_start.toNat ++ wave_table.take t_end.toNat

/-- The attack half of `Note.play` (rhosy.py lines 99-114) followed by the
phase advance `self.t += frame_count` (line 117): when `attack_rate` is
truthy, ramp from `attack_amplitude` to `end_amplitude = attack_amplitude +
frame_count * attack_rate` (clipped to `[0,1]`), scale the block, and either
clear `attack_rate` (if `end_amplitude >= 1`) or store `end_amplitude`. -/
def attackStep (note : Note α) (frame_count : ℤ) (output : List α) :
    Except Unit (List α × Note α) :=
  if truthy note.attack_rate then
    let end_amplitude := note.attack_amplitude + (frame_count : α) * note.attack_rate.getD 0
    match linspace note.attack_amplitude end_amplitude frame_count with
    | .error e => .error e
    | .ok scale =>
      match mulBlocks output (clip01 scale) with
      | .error e => .error e
      | .ok output' =>
        if 1 ≤ end_amplitude then
          .ok (output', { note with attack_rate := none, t := note.t + frame_count })
        else
          .ok (output', { note with attack_amplitude := end_amplitude,
                                    t := note.t + frame_count })
  else .ok (output, { note with t := note.t + frame_count })

/-- `Note.play` (rhosy.py lines 69-118).  Result: `.error ()` for a raised
exception, `.ok (none, note)` for the "finishing note" early return (which
leaves the state untouched), `.ok (some block, note')` for a produced block.
A zero-length wavetable would raise `ZeroDivisionError` at `t_output %
nwave_table`.  The release update `self.release_amplitude =
np.max(end_amplitude, 0)` is the identity on `end_amplitude`: for a scalar
first argument `np.max` treats `0` as the `axis` argument (a reduction), not
as a second operand, so no clamping at zero takes place. -/
def Note.play (note : Note α) (frame_count : ℤ) :
    Except Unit (Option (List α) × Note α) :=
  if (note.wave_table.length : ℤ) = 0 then .error ()
  else
    let output := extract note.wave_table note.t frame_count
    if truthy note.release_rate && !note.held then
      if note.release_amplitude ≤ 0 then
        .ok (none, note)
      else
        let end_amplitude :=
          note.release_amplitude - (frame_count : α) * note.release_rate.getD 0
        match linspace note.release_amplitude end_amplitude frame_count with
        | .error e => .error e
        | .ok scale =>
          match mulBlocks output (clip01 scale) with
          | .error e => .error e
          | .ok output' =>
            match attackStep { note with release_amplitude := end_amplitude }
                frame_count output' with
            | .error e => .error e
            | .ok (out, n) => .ok (some out, n)
    else
      match attackStep note frame_count output with
      | .error e => .error e
      | .ok (out, n) => .ok (some out, n)

/-- `Note.release` (rhosy.py lines 121-130): `release_samples = 100 *
sample_rate / 1000` (100ms, i.e. 4800 samples), `release_rate = 1.0 /
release_samples`, `release_amplitude = 1.0`; then, if the attack is still
running, the release amplitude restarts from the current attack amplitude
and the attack is cancelled. -/
def Note.release (note : Note α) : Note α :=
  let note' := { note with
    release_rate := some (1 / (100 * (sample_rate : α) / 1000))
    release_amplitude := (1 : α) }
  if truthy note'.attack_rate then
    { note' with release_amplitude := note'.attack_amplitude, attack_rate := none }
  else note'

/-- `Note.hold` (rhosy.py lines 133-134). -/
def Note.hold (note : Note α) : Note α := { note with held := true }

/-- `Note.unhold` (rhosy.py lines 137-138). -/
def Note.unhold (note : Note α) : Note α := { note with held := false }

/-- The three message kinds the audio callback consumes from the command
queue (rhosy.py lines 162-181).  For a `note_on`/`note_off` pair the payload
used is `mesg.note`; for the sustain pedal it is `mesg.value`. -/
inductive Event where
  | note_on (key : ℕ)
  | note_off (key : ℕ)
  | sustain_pedal (value : ℕ)
deriving DecidableEq

/-- The engine state owned by the audio callback: the `current_notes` dict
(insertion-ordered, one entry per key) and the `sustaining` flag. -/
structure Engine (α : Type) where
  current_notes : List (ℕ × Note α)
  sustaining : Bool
deriving DecidableEq

/-- Python dict lookup `current_notes[key]` as an option. -/
def dictGet (k : ℕ) : List (ℕ × Note α) → Option (Note α)
  | [] => none
  | (k', n) :: rest => if k' = k then some n else dictGet k rest

/-- Python dict assignment `current_notes[key] = v`: replace in place when
the key is present (keeping its position), append otherwise. -/
def dictSet (k : ℕ) (v : Note α) (l : List (ℕ × Note α)) : List (ℕ × Note α) :=
  if (dictGet k l).isSome then
    l.map fun kn => if kn.1 = k then (k, v) else kn
  else l ++ [(k, v)]

/-- Processing of one drained message (rhosy.py lines 163-181).  `note_on`
builds a fresh `Note` and marks it held when sustaining; `note_off` performs
`current_notes[key].release()`, which raises `KeyError` when the key has no
voice; `sustain_pedal` sets `sustaining = value > 0` and holds/unholds every
active voice. -/
def applyEvent (bank : ℕ → List α) (s : Engine α) : Event → Except Unit (Engine α)
  | .note_on key =>
    let new_note := Note.init bank key
    let new_note := if s.sustaining then { new_note with held := true } else new_note
    .ok { s with current_notes := dictSet key new_note s.current_notes }
  | .note_off key =>
    match dictGet key s.current_notes with
    | none => .error ()
    | some n => .ok { s with current_notes := dictSet key n.release s.current_notes }
  | .sustain_pedal value =>
    let sustaining := decide (0 < value)
    .ok { current_notes :=
            s.current_notes.map fun kn =>
              (kn.1, if sustaining then kn.2.hold else kn.2.unhold)
          sustaining := sustaining }

/-- The `while not command_queue.empty()` drain loop, applying queued
messages in FIFO order. -/
def applyEvents (bank : ℕ → List α) : Engine α → List Event → Except Unit (Engine α)
  | s, [] => .ok s
  | s, e :: rest => match applyEvent bank s e with
    | .error err => .error err
    | .ok s' => applyEvents bank s' rest

/-- The mixing loop of `output_callback` (rhosy.py lines 184-191): iterate
over `current_notes` in order, play each note (mutating it), collect keys of
finished notes, and accumulate `output += sound`.  Returns the updated
entries, the finished keys, and the accumulator. -/
def mixNotes (frame_count : ℤ) (acc : List α) :
    List (ℕ × Note α) → Except Unit (List (ℕ × Note α) × List ℕ × List α)
  | [] => .ok ([], [], acc)
  | (key, note) :: rest =>
    match note.play frame_count with
    | .error e => .error e
    | .ok (none, note') =>
      match mixNotes frame_count acc rest with
      | .error e => .error e
      | .ok (rest', fin, out) => .ok ((key, note') :: rest', key :: fin, out)
    | .ok (some sound, note') =>
      match addBlocks acc sound with
      | .error e => .error e
      | .ok acc' =>
        match mixNotes frame_count acc' rest with
        | .error e => .error e
        | .ok (rest', fin, out) => .ok ((key, note') :: rest', fin, out)

/-- `output_callback` (rhosy.py lines 152-199): drain the queue, zero an
accumulator (`np.zeros` raises for a negative `frame_count`), mix every
active note, delete the finished keys, and return the block.  The returned
engine state reflects all mutations of the call. -/
def output_callback (bank : ℕ → List α) (s : Engine α) (events : List Event)
    (frame_count : ℤ) : Except Unit (Engine α × List α) :=
  match applyEvents bank s events with
  | .error e => .error e
  | .ok s' =>
    if frame_count < 0 then .error ()
    else
      match mixNotes frame_count (List.replicate frame_count.toNat 0) s'.current_notes with
      | .error e => .error e
      | .ok (notes', finished_keys, output) =>
        .ok ({ current_notes := notes'.filter fun kn => decide (kn.1 ∉ finished_keys)
               sustaining := s'.sustaining }, output)

/-- Rendering a sequence of blocks from one voice, concatenating the output:
`.error ()` when some call raises, `.ok none` when some call signals
finished, `.ok (some (samples, note'))` otherwise. -/
def playAll (note : Note α) : List ℤ → Except Unit (Option (List α × Note α))
  | [] => .ok (some ([], note))
  | n :: rest =>
    match note.play n with
    | .error e => .error e
    | .ok (none, _) => .ok none
    | .ok (some out, note') =>
      match playAll note' rest with
      | .error e => .error e
      | .ok none => .ok none
      | .ok (some (outs, final)) => .ok (some (out ++ outs, final))

/-- Python `round`: round half to even (banker's rounding), used by
`make_sin` as `round(ncycles * period)`. -/
noncomputable def pyRound (x : ℝ) : ℤ :=
  if Int.fract x = 1/2 then (if Even ⌊x⌋ then ⌊x⌋ else ⌊x⌋ + 1) else round x

/-- `make_sin` (rhosy.py lines 40-48): `period = sample_rate / f`,
`ncycles = math.ceil(blocksize / period)`,
`nsin = round(ncycles * period)`,
`t_period = np.linspace(0, ncycles * 2π, nsin)`, returning
`0.125 * np.sin(t_period)` ("Allow for eight notes before clipping").
Floating point is idealized as exact real arithmetic. -/
noncomputable def make_sin (f : ℝ) : List ℝ :=
  let period := (sample_rate : ℝ) / f
  let ncycles : ℤ := ⌈(blocksize : ℝ) / period⌉
  let nsin : ℤ := pyRound ((ncycles : ℝ) * period)
  (linspaceL 0 ((ncycles : ℝ) * (2 * Real.pi)) nsin.toNat).map fun t => 0.125 * Real.sin t

/-- The precalculated wavetable bank (rhosy.py lines 50-54):
`f = 440 * 2 ** ((note - 69) / 12)` for each MIDI key.  The Python list has
128 entries; only keys 0..127 are ever looked up. -/
noncomputable def notes : ℕ → List ℝ := fun note =>
  make_sin (440 * (2 : ℝ) ^ (((note : ℝ) - 69) / 12))

/-- A voice in the state produced by `note_on` immediately followed by
`note_off` while the sustain pedal is down, after `tphase` samples of
rendering: held, attack cancelled by `release()` (which captured the attack
amplitude 0 as release amplitude), release decay frozen by `held`. -/
def rawNote (bank : ℕ → List α) (k : ℕ) (tphase : ℤ) : Note α :=
  { t := tphase
    key := k
    release_rate := some (1 / (100 * (sample_rate : α) / 1000))
    attack_rate := none
    attack_amplitude := 0
    release_amplitude := 0
    wave_table := bank k
    held := true }

/-- A voice whose render call returns the raw wavetable block, bypassing
both envelope branches of `Note.play`: held (so the release branch is
skipped) with a cancelled attack, and a wavetable long enough for one
block. -/
def RawVoice (n : Note α) : Prop :=
  n.held = true ∧ n.attack_rate = none ∧ (blocksize : ℤ) ≤ n.wave_table.length

/-- An engine state all of whose voices render raw blocks, with the sustain
pedal down. -/
def RawEngine (s : Engine α) : Prop :=
  s.sustaining = true ∧ ∀ kn ∈ s.current_notes, RawVoice kn.2

/-- Advance every voice's phase cursor by `fc` samples, leaving everything
else unchanged: the effect of one render pass over voices whose envelope
branches are both inactive. -/
def advance (fc : ℤ) (s : Engine α) : Engine α :=
  { s with current_notes :=
      s.current_notes.map fun kn => (kn.1, { kn.2 with t := kn.2.t + fc }) }

/-- The mixed block one render pass produces from an engine whose voices all
render raw blocks: the elementwise sum of each voice's wavetable read. -/
def rawMix (s : Engine α) : List α :=
  s.current_notes.foldl
    (fun acc kn =>
      List.zipWith (· + ·) acc (extract kn.2.wave_table kn.2.t (blocksize : ℤ)))
    (List.replicate blocksize 0)

/-- Keys and controller values carried by real MIDI data bytes (7 bits). -/
def Event.wf : Event → Prop
  | .note_on key => key < 128
  | .note_off key => key < 128
  | .sustain_pedal value => value < 128

/-- Engine states reachable from startup (`current_notes = dict()`,
`sustaining = False`): one step per audio period, processing any batch of
well-formed decoded messages and rendering `blocksize` frames, as
`sounddevice` drives `output_callback`. -/
inductive Reach : Engine ℝ → Prop where
  | init : Reach ⟨[], false⟩
  | step {s s' : Engine ℝ} {events : List Event} {out : List ℝ} :
      Reach s → (∀ e ∈ events, e.wf) →
      output_callback notes s events (blocksize : ℤ) = .ok (s', out) → Reach s'

/-- The sustain invariant of the engine state: while `sustaining` is set,
every active voice is held. -/
def SustainInv (s : Engine α) : Prop :=
  s.sustaining = true → ∀ kn ∈ s.current_notes, kn.2.held = true

/-- The envelope level a voice will apply at the start of its next block:
its attack amplitude while the attack is running, 1 once the attack has
completed. -/
def attackLevel (n : Note α) : α :=
  if truthy n.attack_rate then n.attack_amplitude else 1

/-- Whether a `Note.play` result is the "finishing note" signal (a `None`
return with the voice untouched). -/
def finishedRes (r : Except Unit (Option (List α) × Note α)) : Bool :=
  match r with
  | .ok (none, _) => true
  | _ => false

deriving instance DecidableEq for Except

/-- A rational wavetable bank for concrete examples: every key maps to the
20-sample table 0, 1, ..., 19. -/
def bankQ : ℕ → List ℚ := fun _ => (List.range 20).map fun i : ℕ => (i : ℚ)

/-- The engine state one step after startup once a `note_on` for key 5 was
processed with the sustain pedal already down (for the C8 witness). -/
def engineC8 : Engine ℚ :=
  { current_notes := [(5, { Note.init bankQ 5 with held := true })]
    sustaining := true }

/-- The startup engine state with the sustain pedal down (for the C8
witness). -/
def engineC8start : Engine ℚ :=
  { current_notes := [], sustaining := true }

/-- Concrete voice for the C2 counterexample: release running (rate 1/4800),
not held, attack done, release amplitude 1/1000 — small enough that the next
amplitude after one 16-frame block is negative. -/
def noteC2 : Note ℚ :=
  { t := 0, key := 5, release_rate := some (1/4800), attack_rate := none
    attack_amplitude := 0, release_amplitude := 1/1000
    wave_table := bankQ 5, held := false }

/-- Concrete voice for the C4 counterexample and C5: attack completed, never
released, phase at 0, on the 20-sample table of `bankQ`. -/
def noteSus : Note ℚ :=
  { t := 0, key := 5, release_rate := none, attack_rate := none
    attack_amplitude := 1, release_amplitude := 1
    wave_table := bankQ 5, held := false }

/-- The state of a voice that was created by `note_on` (attack from 0, rate
1/480) and has since rendered `c` samples without being released or held:
while `c < 480` the attack is still running with amplitude `c/480`; from
`c ≥ 480` on, the attack has been cleared. -/
def AttackInv (tb : List α) (c : ℤ) (n : Note α) : Prop :=
  n.release_rate = none ∧ n.held = false ∧ n.wave_table = tb ∧ n.t = c ∧
  ((c < 480 ∧ n.attack_rate = some (1/480) ∧ n.attack_amplitude = (c : α) / 480) ∨
   (480 ≤ c ∧ n.attack_rate = none))

/-- `m` back-to-back render passes over voices with inactive envelopes:
every phase cursor advances by `m` blocks. -/
def advanceN (m : ℕ) (s : Engine α) : Engine α :=
  { s with current_notes :=
      s.current_notes.map fun kn =>
        (kn.1, { kn.2 with t := kn.2.t + (blocksize : ℤ) * m }) }

/-- An engine state reached by pressing the sustain pedal at startup and
then, for each of the nine keys below, enqueueing `note_on k` immediately
followed by `note_off k` at a chosen audio period: each voice is held with
its attack cancelled at amplitude 0 and its release frozen, so it renders
raw wavetable blocks forever.  The phase cursors (chosen via the number of
16-frame blocks each voice has rendered) place every voice at a wavetable
entry where its sine is within `π/26` of a crest, so the mixed output of
the next render exceeds 1. -/
noncomputable def engineC9 : Engine ℝ :=
  { current_notes :=
      [(21, rawNote notes 21 (16 * 1336)),
       (33, rawNote notes 33 (16 * 341)),
       (69, rawNote notes 69 (16 * 63)),
       (81, rawNote notes 81 (16 * 49)),
       (45, rawNote notes 45 (16 * 34)),
       (93, rawNote notes 93 (16 * 19)),
       (57, rawNote notes 57 (16 * 17)),
       (105, rawNote notes 105 (16 * 12)),
       (117, rawNote notes 117 (16 * 3))]
    sustaining := true }

/-! ### Basic lemmas about the wavetable read -/

theorem truthy_none : truthy (none : Option α) = false := rfl

theorem truthy_some {x : α} (h : x ≠ 0) : truthy (some x) = true := by
  simp [truthy, h]

/-- The two residues `t % N` and `(t + fc) % N` of a block read, for
`0 < fc ≤ N`: either the read does not wrap and the end residue is
`t % N + fc`, or it wraps (or lands exactly on the boundary) and the end
residue is `t % N + fc - N`. -/
theorem emod_dichotomy (t fc N : ℤ) (h1 : 0 < fc) (h2 : fc ≤ N) :
    (t % N + fc < N ∧ (t + fc) % N = t % N + fc) ∨
    (N ≤ t % N + fc ∧ (t + fc) % N = t % N + fc - N) := by
  have hN : 0 < N := lt_of_lt_of_le h1 h2
  have hs0 : 0 ≤ t % N := Int.emod_nonneg t (by omega)
  have hsN : t % N < N := Int.emod_lt_of_pos t hN
  have key : (t + fc) % N = (t % N + fc) % N := (Int.emod_add_emod t N fc).symm
  by_cases hlt : t % N + fc < N
  · exact Or.inl ⟨hlt, by rw [key, Int.emod_eq_of_lt (by omega) hlt]⟩
  · refine Or.inr ⟨by omega, ?_⟩
    rw [key]
    have : (t % N + fc) % N = (t % N + fc - N) % N := by
      rw [Int.sub_emod, Int.emod_self, sub_zero, Int.emod_emod_of_dvd _ dvd_rfl]
    rw [this, Int.emod_eq_of_lt (by omega) (by omega)]

omit [LinearOrderedField α] in
/-- The wrap-around read with its local bindings inlined. -/
theorem extract_def (tb : List α) (t fc : ℤ) :
    extract tb t fc =
      if t % (tb.length : ℤ) < (t + fc) % (tb.length : ℤ) then
        (tb.drop (t % (tb.length : ℤ)).toNat).take
          ((t + fc) % (tb.length : ℤ) - t % (tb.length : ℤ)).toNat
      else
        tb.drop (t % (tb.length : ℤ)).toNat ++
          tb.take ((t + fc) % (tb.length : ℤ)).toNat := rfl

/-- For `0 < fc ≤ table length`, the wrap-around read returns exactly
`fc` samples. -/
theorem extract_length (tb : List α) (t fc : ℤ) (h1 : 0 < fc)
    (h2 : fc ≤ (tb.length : ℤ)) :
    (extract tb t fc).length = fc.toNat := by
  rw [extract_def]
  have hN : 0 < (tb.length : ℤ) := lt_of_lt_of_le h1 h2
  have hs0 : 0 ≤ t % (tb.length : ℤ) := Int.emod_nonneg t (by omega)
  have hsN : t % (tb.length : ℤ) < tb.length := Int.emod_lt_of_pos t hN
  have he0 : 0 ≤ (t + fc) % (tb.length : ℤ) := Int.emod_nonneg _ (by omega)
  rcases emod_dichotomy t fc (tb.length : ℤ) h1 h2 with ⟨hb, he⟩ | ⟨hb, he⟩
  · rw [he, if_pos (by omega)]
    simp only [List.length_take, List.length_drop]
    omega
  · rw [he, if_neg (by omega)]
    simp only [List.length_append, List.length_drop, List.length_take]
    omega

/-- A contiguous slice `tb[a : a+m]` written as a map over indices. -/
theorem take_drop_eq_map (tb : List α) (a m : ℕ) (h : a + m ≤ tb.length) :
    (tb.drop a).take m = (List.range m).map (fun i => tb.getD (a + i) 0) := by
  apply List.ext_getElem
  · simp; omega
  intro i hi hi'
  simp only [List.length_take, List.length_drop] at hi
  rw [List.getElem_take, List.getElem_drop, List.getElem_map, List.getElem_range,
    List.getD_eq_getElem tb 0 (by omega)]

/-- Elementwise description of the wrap-around read: for `0 < fc ≤ table
length`, sample `i` of the returned block is table entry `(t + i) % N`. -/
theorem extract_eq_map (tb : List α) (t fc : ℤ) (h1 : 0 < fc)
    (h2 : fc ≤ (tb.length : ℤ)) :
    extract tb t fc = (List.range fc.toNat).map
      (fun i : ℕ => tb.getD ((t + (i : ℤ)) % (tb.length : ℤ)).toNat 0) := by
  have hN : 0 < (tb.length : ℤ) := lt_of_lt_of_le h1 h2
  have hs0 : 0 ≤ t % (tb.length : ℤ) := Int.emod_nonneg t (by omega)
  have hsN : t % (tb.length : ℤ) < tb.length := Int.emod_lt_of_pos t hN
  have hidx : ∀ i : ℕ, (t + (i : ℤ)) % (tb.length : ℤ) =
      (t % (tb.length : ℤ) + i) % (tb.length : ℤ) := by
    intro i; rw [← Int.emod_add_emod]
  rw [extract_def]
  rcases emod_dichotomy t fc (tb.length : ℤ) h1 h2 with ⟨hb, he⟩ | ⟨hb, he⟩
  · -- no wrap: the slice is tb[s : s+fc]
    rw [he, if_pos (by omega),
      show (t % (tb.length : ℤ) + fc - t % (tb.length : ℤ)).toNat = fc.toNat by omega,
      take_drop_eq_map tb _ _ (by omega)]
    apply List.map_congr_left
    intro i hi
    rw [List.mem_range] at hi
    have hres : (t + (i : ℤ)) % (tb.length : ℤ) = t % (tb.length : ℤ) + i := by
      rw [hidx i]
      exact Int.emod_eq_of_lt (by omega) (by omega)
    rw [hres]
    congr 1
    omega
  · -- wrap: the slice is tb[s:] ++ tb[:e]
    rw [he, if_neg (by omega)]
    have hdrop : tb.drop (t % (tb.length : ℤ)).toNat =
        (tb.drop (t % (tb.length : ℤ)).toNat).take
          (tb.length - (t % (tb.length : ℤ)).toNat) := by
      rw [List.take_of_length_le (by simp)]
    have htake : tb.take (t % (tb.length : ℤ) + fc - tb.length).toNat =
        (tb.drop 0).take (t % (tb.length : ℤ) + fc - tb.length).toNat := by
      rw [List.drop_zero]
    rw [hdrop, htake, take_drop_eq_map tb _ _ (by omega),
      take_drop_eq_map tb _ _ (by omega),
      show fc.toNat = (tb.length - (t % (tb.length : ℤ)).toNat) +
        (t % (tb.length : ℤ) + fc - tb.length).toNat by omega,
      List.range_add, List.map_append, List.map_map]
    congr 1
    · apply List.map_congr_left
      intro i hi
      rw [List.mem_range] at hi
      have hres : (t + (i : ℤ)) % (tb.length : ℤ) = t % (tb.length : ℤ) + i := by
        rw [hidx i]
        exact Int.emod_eq_of_lt (by omega) (by omega)
      rw [hres]
      congr 1
      omega
    · apply List.map_congr_left
      intro i hi
      rw [List.mem_range] at hi
      simp only [Function.comp]
      have hres : (t + ((tb.length - (t % (tb.length : ℤ)).toNat + i : ℕ) : ℤ)) %
          (tb.length : ℤ) = (i : ℤ) := by
        rw [hidx]
        have hfull : t % (tb.length : ℤ) +
            ((tb.length - (t % (tb.length : ℤ)).toNat + i : ℕ) : ℤ) =
            (i : ℤ) + (tb.length : ℤ) * 1 := by push_cast; omega
        rw [hfull, Int.add_mul_emod_self_left]
        exact Int.emod_eq_of_lt (by omega) (by omega)
      rw [hres]
      congr 1
      omega

/-- Sample 0 of a block read is the table entry at the current phase
residue. -/
theorem extract_getD_zero (tb : List α) (t fc : ℤ) (h1 : 0 < fc)
    (h2 : fc ≤ (tb.length : ℤ)) :
    (extract tb t fc).getD 0 0 = tb.getD (t % (tb.length : ℤ)).toNat 0 := by
  rw [extract_eq_map tb t fc h1 h2]
  obtain ⟨m, hm⟩ : ∃ m, fc.toNat = m + 1 := ⟨fc.toNat - 1, by omega⟩
  rw [hm, List.range_succ_eq_map]
  simp

/-! ### Characterizations of `Note.play` in each envelope regime -/

theorem clip01_length (xs : List α) : (clip01 xs).length = xs.length := by
  simp [clip01]

theorem linspaceL_length (a b : α) (n : ℕ) : (linspaceL a b n).length = n := by
  simp [linspaceL]

/-- A voice with no active envelope branch (release skipped because it is
unset or the voice is held, attack already cleared) plays the raw wavetable
block and only advances its phase. -/
theorem play_raw (n : Note α) (fc : ℤ)
    (hcond : (truthy n.release_rate && !n.held) = false)
    (hatk : n.attack_rate = none)
    (hN : 0 < n.wave_table.length) :
    n.play fc = .ok (some (extract n.wave_table n.t fc), { n with t := n.t + fc }) := by
  have hlen : ¬((n.wave_table.length : ℤ) = 0) := by
    simp only [Nat.cast_eq_zero]
    omega
  simp only [Note.play]
  rw [if_neg hlen, hcond]
  simp only [Bool.false_eq_true, if_false]
  simp only [attackStep, hatk, truthy_none, Bool.false_eq_true, if_false]

/-- A releasing voice (nonzero rate, not held, attack done) with positive
amplitude plays a scaled block and stores the un-clamped next amplitude
`release_amplitude - frame_count * release_rate`. -/
theorem play_release_decay (n : Note α) (r : α) (fc : ℤ)
    (hrr : n.release_rate = some r) (hr : r ≠ 0) (hheld : n.held = false)
    (hatk : n.attack_rate = none) (hamp : 0 < n.release_amplitude)
    (h1 : 0 < fc) (h2 : fc ≤ (n.wave_table.length : ℤ)) :
    ∃ out, n.play fc = .ok (some out,
      { n with release_amplitude := n.release_amplitude - (fc : α) * r,
               t := n.t + fc }) := by
  have hlen : ¬((n.wave_table.length : ℤ) = 0) := by
    simp only [Nat.cast_eq_zero]
    omega
  have hmul : (extract n.wave_table n.t fc).length =
      (clip01 (linspaceL n.release_amplitude
        (n.release_amplitude - (fc : α) * r) fc.toNat)).length := by
    rw [extract_length _ _ _ h1 h2, clip01_length, linspaceL_length]
  have heq : n.play fc = .ok (some
      (List.zipWith (· * ·) (extract n.wave_table n.t fc)
        (clip01 (linspaceL n.release_amplitude
          (n.release_amplitude - (fc : α) * r) fc.toNat))),
      { n with release_amplitude := n.release_amplitude - (fc : α) * r,
               t := n.t + fc }) := by
    simp only [Note.play]
    rw [if_neg hlen, hrr]
    simp only [truthy_some hr, hheld, Bool.not_false, Bool.and_self, if_true,
      if_neg (not_le.mpr hamp), Option.getD_some, linspace,
      if_neg (not_lt.mpr h1.le)]
    simp only [mulBlocks, if_pos hmul, attackStep, hatk, truthy_none,
      Bool.false_eq_true, if_false]
  exact ⟨_, heq⟩

/-- A releasing voice (nonzero rate, not held) whose amplitude at entry is
already ≤ 0 signals finished and is left untouched. -/
theorem play_release_finished (n : Note α) (r : α) (fc : ℤ)
    (hrr : n.release_rate = some r) (hr : r ≠ 0) (hheld : n.held = false)
    (hamp : n.release_amplitude ≤ 0) (hN : 0 < n.wave_table.length) :
    n.play fc = .ok (none, n) := by
  have hlen : ¬((n.wave_table.length : ℤ) = 0) := by
    simp only [Nat.cast_eq_zero]
    omega
  simp [Note.play, hlen, hrr, truthy_some hr, hheld, hamp]

/-- While a voice is held, a render call never touches its release state:
the release branch is skipped wholesale, whatever `release_rate` and
`release_amplitude` hold. -/
theorem play_held (n : Note α) (fc : ℤ) (hheld : n.held = true)
    (h1 : 0 < fc) (h2 : fc ≤ (n.wave_table.length : ℤ)) :
    ∃ out n', n.play fc = .ok (some out, n') ∧
      n'.release_amplitude = n.release_amplitude ∧
      n'.release_rate = n.release_rate ∧
      n'.held = true ∧
      n'.wave_table = n.wave_table ∧
      n'.t = n.t + fc ∧
      (n.attack_rate = none → n'.attack_rate = none) := by
  have hlen : ¬((n.wave_table.length : ℤ) = 0) := by
    simp only [Nat.cast_eq_zero]
    omega
  have hcond : (truthy n.release_rate && !n.held) = false := by
    rw [hheld]
    simp
  match hatk : n.attack_rate with
  | none =>
    exact ⟨_, _, play_raw n fc hcond hatk (by omega), rfl, rfl, hheld, rfl, rfl,
      fun _ => hatk⟩
  | some r =>
    by_cases hr : r = 0
    · have htr : truthy n.attack_rate = false := by
        rw [hatk, hr]
        simp [truthy]
      have heq : n.play fc = .ok (some (extract n.wave_table n.t fc),
          { n with t := n.t + fc }) := by
        simp only [Note.play]
        rw [if_neg hlen, hcond]
        simp only [Bool.false_eq_true, if_false]
        simp only [attackStep, htr, Bool.false_eq_true, if_false]
      exact ⟨_, _, heq, rfl, rfl, hheld, rfl, rfl,
        fun h => Option.noConfusion h⟩
    · have htr : truthy n.attack_rate = true := by rw [hatk]; exact truthy_some hr
      have hmul : (extract n.wave_table n.t fc).length =
          (clip01 (linspaceL n.attack_amplitude
            (n.attack_amplitude + (fc : α) * r) fc.toNat)).length := by
        rw [extract_length _ _ _ h1 h2, clip01_length, linspaceL_length]
      by_cases hend : 1 ≤ n.attack_amplitude + (fc : α) * r
      · have heq : n.play fc = .ok (some
            (List.zipWith (· * ·) (extract n.wave_table n.t fc)
              (clip01 (linspaceL n.attack_amplitude
                (n.attack_amplitude + (fc : α) * r) fc.toNat))),
            { n with attack_rate := none, t := n.t + fc }) := by
          simp only [Note.play]
          rw [if_neg hlen, hcond]
          simp only [Bool.false_eq_true, if_false]
          simp only [attackStep, htr, if_true, hatk, Option.getD_some, linspace,
            if_neg (not_lt.mpr h1.le), mulBlocks, if_pos hmul, if_pos hend,
            truthy_some hr]
        exact ⟨_, _, heq, rfl, rfl, hheld, rfl, rfl,
          fun h => Option.noConfusion h⟩
      · have heq : n.play fc = .ok (some
            (List.zipWith (· * ·) (extract n.wave_table n.t fc)
              (clip01 (linspaceL n.attack_amplitude
                (n.attack_amplitude + (fc : α) * r) fc.toNat))),
            { n with attack_amplitude := n.attack_amplitude + (fc : α) * r,
                     t := n.t + fc }) := by
          simp only [Note.play]
          rw [if_neg hlen, hcond]
          simp only [Bool.false_eq_true, if_false]
          simp only [attackStep, htr, if_true, hatk, Option.getD_some, linspace,
            if_neg (not_lt.mpr h1.le), mulBlocks, if_pos hmul, if_neg hend,
            truthy_some hr]
        exact ⟨_, _, heq, rfl, rfl, hheld, rfl, rfl,
          fun h => Option.noConfusion h⟩

/-- An attacking voice (never released) plays a ramp-scaled block; the next
amplitude `attack_amplitude + frame_count * attack_rate` either clears the
attack (when it reaches 1) or is stored. -/
theorem play_attack (n : Note α) (r : α) (fc : ℤ)
    (hrel : n.release_rate = none) (hatk : n.attack_rate = some r) (hr : r ≠ 0)
    (h1 : 0 < fc) (h2 : fc ≤ (n.wave_table.length : ℤ)) :
    ∃ out, n.play fc = .ok (some out,
      if 1 ≤ n.attack_amplitude + (fc : α) * r then
        { n with attack_rate := none, t := n.t + fc }
      else
        { n with attack_amplitude := n.attack_amplitude + (fc : α) * r,
                 t := n.t + fc }) := by
  have hlen : ¬((n.wave_table.length : ℤ) = 0) := by
    simp only [Nat.cast_eq_zero]
    omega
  have hcond : (truthy n.release_rate && !n.held) = false := by
    rw [hrel]
    simp [truthy]
  have htr : truthy n.attack_rate = true := by rw [hatk]; exact truthy_some hr
  have hmul : (extract n.wave_table n.t fc).length =
      (clip01 (linspaceL n.attack_amplitude
        (n.attack_amplitude + (fc : α) * r) fc.toNat)).length := by
    rw [extract_length _ _ _ h1 h2, clip01_length, linspaceL_length]
  refine ⟨List.zipWith (· * ·) (extract n.wave_table n.t fc)
    (clip01 (linspaceL n.attack_amplitude
      (n.attack_amplitude + (fc : α) * r) fc.toNat)), ?_⟩
  by_cases hend : 1 ≤ n.attack_amplitude + (fc : α) * r
  · rw [if_pos hend]
    simp only [Note.play]
    rw [if_neg hlen, hcond]
    simp only [Bool.false_eq_true, if_false]
    simp only [attackStep, htr, if_true, hatk, Option.getD_some, linspace,
      if_neg (not_lt.mpr h1.le), mulBlocks, if_pos hmul, if_pos hend, truthy_some hr]
  · rw [if_neg hend]
    simp only [Note.play]
    rw [if_neg hlen, hcond]
    simp only [Bool.false_eq_true, if_false]
    simp only [attackStep, htr, if_true, hatk, Option.getD_some, linspace,
      if_neg (not_lt.mpr h1.le), mulBlocks, if_pos hmul, if_neg hend, truthy_some hr]

/-! ### Claims C1, C2, C6, C7, C10 -/

/-- C1: the spec claims that a `NoteOff` for a key with no active voice in
the voice map is silently ignored (a no-op, not an error) and that event
processing completes normally.  The code instead evaluates
`current_notes[key].release()` unconditionally (rhosy.py line 172), which
raises `KeyError` — contradicting the source's own comment ("If it is
already off, this message will be ignored", rhosy.py lines 232-233).
Failing input: a `note_off` for key 60 arriving with an empty voice map. -/
theorem C1_note_off_missing_voice_raises :
    applyEvent bankQ { current_notes := [], sustaining := false }
      (Event.note_off 60) = .error () := rfl

unseal Rat.inv Rat.mul Rat.add Rat.sub Rat.ofScientific in
/-- C2 counterexample: the claim says that when the NEXT release amplitude
(current minus `frame_count * release_rate`) is ≤ 0, THAT render call
signals finished and returns no samples.  On `noteC2` (entry amplitude
1/1000 > 0, next amplitude 1/1000 - 16/4800 < 0) the call does not signal
finished: it returns a block. -/
theorem C2_counterexample :
    truthy noteC2.release_rate = true ∧ noteC2.held = false ∧
    noteC2.release_amplitude - ((16 : ℤ) : ℚ) * noteC2.release_rate.getD 0 ≤ 0 ∧
    finishedRes (noteC2.play 16) = false := by decide

/-- C2 amended: with the release running (nonzero rate, not held, attack
done), a render call signals finished exactly when the release amplitude AT
ENTRY is ≤ 0.  A call entering with positive amplitude whose next amplitude
is ≤ 0 still returns a block and stores that next amplitude; the FOLLOWING
render call then signals finished and returns no samples. -/
theorem C2_amended_release_finish (n : Note α) (r : α) (fc fc' : ℤ)
    (hrr : n.release_rate = some r) (hr : r ≠ 0) (hheld : n.held = false)
    (hatk : n.attack_rate = none) (h1 : 0 < fc)
    (h2 : fc ≤ (n.wave_table.length : ℤ)) :
    (n.release_amplitude ≤ 0 → n.play fc = .ok (none, n)) ∧
    (0 < n.release_amplitude → n.release_amplitude - (fc : α) * r ≤ 0 →
      ∃ out n', n.play fc = .ok (some out, n') ∧
        n'.release_amplitude = n.release_amplitude - (fc : α) * r ∧
        n'.play fc' = .ok (none, n')) := by
  constructor
  · intro hamp
    exact play_release_finished n r fc hrr hr hheld hamp (by omega)
  · intro hamp hnext
    obtain ⟨out, heq⟩ := play_release_decay n r fc hrr hr hheld hatk hamp h1 h2
    refine ⟨out, _, heq, rfl, ?_⟩
    exact play_release_finished _ r fc' hrr hr hheld hnext
      (by show 0 < n.wave_table.length; omega)

unseal Rat.inv Rat.mul Rat.add Rat.sub Rat.ofScientific in
/-- C2 amended, witnessed on `noteC2` with 16-frame blocks. -/
theorem C2_witness :
    ((noteC2.release_rate = some (1/4800) ∧ noteC2.held = false ∧
      noteC2.attack_rate = none ∧ 0 < (16 : ℤ) ∧
      (16 : ℤ) ≤ (noteC2.wave_table.length : ℤ))) ∧
    ((noteC2.release_amplitude ≤ 0 → noteC2.play 16 = .ok (none, noteC2)) ∧
     (0 < noteC2.release_amplitude →
        noteC2.release_amplitude - ((16 : ℤ) : ℚ) * (1/4800) ≤ 0 →
        ∃ out n', noteC2.play 16 = .ok (some out, n') ∧
          n'.release_amplitude =
            noteC2.release_amplitude - ((16 : ℤ) : ℚ) * (1/4800) ∧
          n'.play 16 = .ok (none, n'))) :=
  ⟨⟨by decide, by decide, by decide, by decide, by decide⟩,
    C2_amended_release_finish noteC2 (1/4800) 16 16 (by decide) (by decide)
      (by decide) (by decide) (by decide) (by decide)⟩

/-- C6: `release()` on a voice whose attack has not completed (truthy
`attack_rate`) captures the current attack amplitude as the starting release
amplitude and cancels the attack; on a voice whose attack completed it
starts the release amplitude at 1.0; in both cases `release_rate` is set to
the fixed rate 1/4800 derived from 100 ms at 48000 sps. -/
theorem C6_release_capture (n : Note α) :
    n.release.release_rate = some (1 / 4800) ∧
    n.release.release_amplitude =
      (if truthy n.attack_rate = true then n.attack_amplitude else 1) ∧
    n.release.attack_rate =
      (if truthy n.attack_rate = true then none else n.attack_rate) := by
  have hrate : (1 : α) / (100 * (sample_rate : α) / 1000) = 1 / 4800 := by
    norm_num [sample_rate]
  unfold Note.release
  by_cases h : truthy n.attack_rate = true
  · simp [h, hrate]
  · simp [h, hrate]

/-- C6 witnessed on a fresh (still attacking) voice and on a voice whose
attack has completed. -/
theorem C6_witness :
    ((Note.init bankQ 5).release.release_rate = some (1 / 4800) ∧
     (Note.init bankQ 5).release.release_amplitude =
       (if truthy (Note.init bankQ 5).attack_rate = true then
          (Note.init bankQ 5).attack_amplitude else 1) ∧
     (Note.init bankQ 5).release.attack_rate =
       (if truthy (Note.init bankQ 5).attack_rate = true then none
        else (Note.init bankQ 5).attack_rate)) ∧
    (noteSus.release.release_rate = some (1 / 4800) ∧
     noteSus.release.release_amplitude =
       (if truthy noteSus.attack_rate = true then noteSus.attack_amplitude
        else 1) ∧
     noteSus.release.attack_rate =
       (if truthy noteSus.attack_rate = true then none
        else noteSus.attack_rate)) :=
  ⟨C6_release_capture (Note.init bankQ 5), C6_release_capture noteSus⟩

/-- C7: while a voice is held, a render call skips the release step
entirely even though `release_rate` remains set: the release amplitude is
unchanged by the call; and after `unhold()`, decay resumes from that frozen
value (the next call subtracts `frame_count * release_rate` from it). -/
theorem C7_sustain_freeze (n : Note α) (r : α) (fc fc' : ℤ)
    (hheld : n.held = true) (hrr : n.release_rate = some r) (hr : r ≠ 0)
    (hatk : n.attack_rate = none) (hamp : 0 < n.release_amplitude)
    (h1 : 0 < fc) (h2 : fc ≤ (n.wave_table.length : ℤ))
    (h1' : 0 < fc') (h2' : fc' ≤ (n.wave_table.length : ℤ)) :
    ∃ out n', n.play fc = .ok (some out, n') ∧
      n'.release_amplitude = n.release_amplitude ∧
      n'.release_rate = some r ∧ n'.held = true ∧
      ∃ out2 n'', n'.unhold.play fc' = .ok (some out2, n'') ∧
        n''.release_amplitude = n.release_amplitude - (fc' : α) * r := by
  obtain ⟨out, n', heq, hA, hRR, hH, hW, hT, hAtk⟩ := play_held n fc hheld h1 h2
  have hRR' : n'.release_rate = some r := hRR.trans hrr
  have hUrr : n'.unhold.release_rate = some r := hRR'
  have hUheld : n'.unhold.held = false := rfl
  have hUatk : n'.unhold.attack_rate = none := hAtk hatk
  have hUamp : 0 < n'.unhold.release_amplitude := by
    show 0 < n'.release_amplitude
    rw [hA]
    exact hamp
  have hUw : fc' ≤ (n'.unhold.wave_table.length : ℤ) := by
    show fc' ≤ (n'.wave_table.length : ℤ)
    rw [hW]
    exact h2'
  obtain ⟨out2, heq2⟩ :=
    play_release_decay n'.unhold r fc' hUrr hr hUheld hUatk hUamp h1' hUw
  refine ⟨out, n', heq, hA, hRR', hH, out2, _, heq2, ?_⟩
  show n'.unhold.release_amplitude - (fc' : α) * r =
    n.release_amplitude - (fc' : α) * r
  rw [show n'.unhold.release_amplitude = n'.release_amplitude from rfl, hA]

unseal Rat.inv Rat.mul Rat.add Rat.sub Rat.ofScientific in
/-- C7 witnessed on a held releasing voice with frozen amplitude 2/5. -/
theorem C7_witness :
    ∃ out n', (Note.mk 0 5 (some (1/4800)) none 0 (2/5) (bankQ 5) true).play 16 =
        .ok (some out, n') ∧
      n'.release_amplitude = (2/5 : ℚ) ∧
      n'.release_rate = some (1/4800) ∧ n'.held = true ∧
      ∃ out2 n'', n'.unhold.play 16 = .ok (some out2, n'') ∧
        n''.release_amplitude = (2/5 : ℚ) - ((16 : ℤ) : ℚ) * (1/4800) :=
  C7_sustain_freeze (Note.mk 0 5 (some (1/4800)) none 0 (2/5) (bankQ 5) true)
    (1/4800) 16 16 (by decide) (by decide) (by decide) (by decide) (by decide)
    (by decide) (by decide) (by decide) (by decide)

/-- C10 (implicit behavior): a voice released while still attacking has its
attack cancelled with the attack amplitude captured as release amplitude;
if it is held, every subsequent render call skips BOTH envelope branches and
returns the raw wavetable block with no scaling at all — the output jumps
from the captured attack amplitude to full table amplitude instead of
staying frozen at the captured value. -/
theorem C10_raw_after_release_while_attacking_held (n : Note α)
    (hheld : n.held = true) (hatk : truthy n.attack_rate = true) :
    n.release.held = true ∧
    n.release.attack_rate = none ∧
    n.release.release_amplitude = n.attack_amplitude ∧
    (∀ m : Note α, m.held = true → m.attack_rate = none →
      0 < m.wave_table.length →
      ∀ fc, m.play fc = .ok (some (extract m.wave_table m.t fc),
        { m with t := m.t + fc }) ∧
        ({ m with t := m.t + fc } : Note α).held = true ∧
        ({ m with t := m.t + fc } : Note α).attack_rate = none) := by
  refine ⟨?_, ?_, ?_, ?_⟩
  · simp [Note.release, hatk, hheld]
  · simp [Note.release, hatk]
  · simp [Note.release, hatk]
  · intro m hmh hma hmN fc
    refine ⟨?_, hmh, hma⟩
    apply play_raw m fc ?_ hma hmN
    rw [hmh]
    simp

unseal Rat.inv Rat.mul Rat.add Rat.sub Rat.ofScientific in
/-- C10 witnessed on a fresh voice held by the sustain pedal and released
mid-attack, rendering one raw block. -/
theorem C10_witness :
    ({ Note.init bankQ 5 with held := true } : Note ℚ).release.held = true ∧
    ({ Note.init bankQ 5 with held := true } : Note ℚ).release.attack_rate = none ∧
    ({ Note.init bankQ 5 with held := true } : Note ℚ).release.release_amplitude =
      ({ Note.init bankQ 5 with held := true } : Note ℚ).attack_amplitude ∧
    (∀ m : Note ℚ, m.held = true → m.attack_rate = none →
      0 < m.wave_table.length →
      ∀ fc, m.play fc = .ok (some (extract m.wave_table m.t fc),
        { m with t := m.t + fc }) ∧
        ({ m with t := m.t + fc } : Note ℚ).held = true ∧
        ({ m with t := m.t + fc } : Note ℚ).attack_rate = none) :=
  C10_raw_after_release_while_attacking_held
    { Note.init bankQ 5 with held := true } (by decide) (by decide)

/-! ### Claim C3: the attack envelope -/

/-- A fresh voice satisfies the attack invariant at cumulative sample
count 0. -/
theorem attackInv_init (bank : ℕ → List α) (key : ℕ) :
    AttackInv (bank key) 0 (Note.init bank key) := by
  refine ⟨rfl, rfl, rfl, rfl, Or.inl ⟨by norm_num, ?_, by norm_num [Note.init]⟩⟩
  show some ((1 : α) / (10 * (sample_rate : α) / 1000)) = some (1/480)
  norm_num [sample_rate]

/-- One render call preserves the attack invariant, advancing the
cumulative sample count by the block size. -/
theorem attackInv_step (tb : List α) (c fc : ℤ) (n : Note α)
    (hInv : AttackInv tb c n) (h1 : 0 < fc) (h2 : fc ≤ (tb.length : ℤ)) :
    ∃ out n', n.play fc = .ok (some out, n') ∧ AttackInv tb (c + fc) n' := by
  obtain ⟨hrel, hheld, hw, ht, hcase⟩ := hInv
  have h2' : fc ≤ (n.wave_table.length : ℤ) := by rw [hw]; exact h2
  rcases hcase with ⟨hc, hrate, hamp⟩ | ⟨hc, hrate⟩
  · have hr : (1 : α) / 480 ≠ 0 := by norm_num
    obtain ⟨out, heq⟩ := play_attack n (1/480) fc hrel hrate hr h1 h2'
    have hend : n.attack_amplitude + (fc : α) * (1/480) = ((c + fc : ℤ) : α) / 480 := by
      rw [hamp]
      push_cast
      ring
    by_cases hcross : 480 ≤ c + fc
    · have hge : 1 ≤ n.attack_amplitude + (fc : α) * (1/480) := by
        rw [hend]
        rw [le_div_iff (by norm_num : (0:α) < 480)]
        rw [one_mul]
        exact_mod_cast hcross
      rw [if_pos hge] at heq
      exact ⟨out, _, heq, hrel, hheld, hw, by simp [ht], Or.inr ⟨hcross, rfl⟩⟩
    · have hlt : ¬(1 ≤ n.attack_amplitude + (fc : α) * (1/480)) := by
        rw [hend, le_div_iff (by norm_num : (0:α) < 480), one_mul]
        intro hcon
        exact hcross (by exact_mod_cast hcon)
      rw [if_neg hlt] at heq
      exact ⟨out, _, heq, hrel, hheld, hw, by simp [ht],
        Or.inl ⟨by omega, hrate, hend⟩⟩
  · have hcond : (truthy n.release_rate && !n.held) = false := by
      rw [hrel]
      simp [truthy]
    have heq := play_raw n fc hcond hrate (by omega)
    exact ⟨_, _, heq, hrel, hheld, hw, by simp [ht], Or.inr ⟨by omega, hrate⟩⟩

/-- Rendering any sequence of valid blocks preserves the attack invariant,
never raising and never signalling finished. -/
theorem attackInv_playAll (tb : List α) (ns : List ℤ) :
    ∀ (c : ℤ) (n : Note α), AttackInv tb c n →
    (∀ m ∈ ns, 0 < m ∧ m ≤ (tb.length : ℤ)) →
    ∃ res, playAll n ns = .ok (some res) ∧ AttackInv tb (c + ns.sum) res.2 := by
  induction ns with
  | nil =>
    intro c n hInv _
    exact ⟨([], n), rfl, by simpa using hInv⟩
  | cons m rest ih =>
    intro c n hInv hns
    obtain ⟨h1, h2⟩ := hns m (by simp)
    obtain ⟨out, n', heq, hInv'⟩ := attackInv_step tb c m n hInv h1 h2
    obtain ⟨⟨outs, nf⟩, heqr, hInvf⟩ :=
      ih (c + m) n' hInv' (fun x hx => hns x (by simp [hx]))
    refine ⟨(out ++ outs, nf), ?_, ?_⟩
    · simp [playAll, heq, heqr]
    · have : c + (m :: rest).sum = c + m + rest.sum := by
        simp
        ring
      rw [this]
      exact hInvf

/-- Sums of prefixes of a positive list are monotone. -/
theorem take_sum_mono (ns : List ℤ) (hpos : ∀ m ∈ ns, 0 < m) (j i : ℕ)
    (hji : j ≤ i) : (ns.take j).sum ≤ (ns.take i).sum := by
  have hsplit : ns.take i = ns.take j ++ (ns.drop j).take (i - j) := by
    rw [← List.take_add]
    congr 1
    omega
  rw [hsplit, List.sum_append]
  have : 0 ≤ ((ns.drop j).take (i - j)).sum := by
    apply List.sum_nonneg
    intro x hx
    exact le_of_lt (hpos x (List.drop_subset _ _ (List.take_subset _ _ hx)))
  omega

/-- C3: from `NoteOn`, for every sequence of valid render calls, the attack
level (attack amplitude while attacking, 1 after) after any prefix of `i`
blocks equals `min (total/480) 1`; it is non-decreasing from prefix to
prefix, never exceeds 1.0, and reaches exactly 1.0 as soon as the
configured attack duration's 480 samples have been rendered; when the next
attack amplitude reaches 1 the attack rate is cleared, otherwise the next
amplitude is stored. -/
theorem C3_attack_envelope (bank : ℕ → List α) (key : ℕ) (ns : List ℤ)
    (hns : ∀ m ∈ ns, 0 < m ∧ m ≤ ((bank key).length : ℤ)) :
    ∀ i : ℕ,
      ∃ res, playAll (Note.init bank key) (ns.take i) = .ok (some res) ∧
        attackLevel res.2 = min (((ns.take i).sum : α) / 480) 1 ∧
        attackLevel res.2 ≤ 1 ∧
        (∀ j : ℕ, j ≤ i →
          ∃ res', playAll (Note.init bank key) (ns.take j) = .ok (some res') ∧
            attackLevel res'.2 ≤ attackLevel res.2) ∧
        (480 ≤ (ns.take i).sum →
          res.2.attack_rate = none ∧ attackLevel res.2 = 1) ∧
        ((ns.take i).sum < 480 →
          res.2.attack_rate = some (1/480) ∧
          res.2.attack_amplitude = (((ns.take i).sum : ℤ) : α) / 480) := by
  have level_of : ∀ (c : ℤ) (m : Note α), AttackInv (bank key) c m → 0 ≤ c →
      attackLevel m = min ((c : α) / 480) 1 := by
    intro c m hInv hc0
    obtain ⟨-, -, -, -, hcase⟩ := hInv
    rcases hcase with ⟨hc, hrate, hamp⟩ | ⟨hc, hrate⟩
    · have : truthy m.attack_rate = true := by
        rw [hrate]
        exact truthy_some (by norm_num)
      rw [attackLevel, this, if_pos rfl, hamp]
      rw [min_eq_left]
      rw [div_le_one (by norm_num : (0:α) < 480)]
      exact_mod_cast le_of_lt hc
    · rw [attackLevel, hrate, truthy_none, min_eq_right]
      · simp
      · rw [one_le_div (by norm_num : (0:α) < 480)]
        exact_mod_cast hc
  have run : ∀ i : ℕ,
      ∃ res, playAll (Note.init bank key) (ns.take i) = .ok (some res) ∧
        AttackInv (bank key) (ns.take i).sum res.2 := by
    intro i
    have := attackInv_playAll (bank key) (ns.take i) 0 (Note.init bank key)
      (attackInv_init bank key)
      (fun m hm => hns m (List.take_subset _ _ hm))
    simpa using this
  have sum_nonneg : ∀ i : ℕ, 0 ≤ (ns.take i).sum := by
    intro i
    apply List.sum_nonneg
    intro x hx
    exact le_of_lt (hns x (List.take_subset _ _ hx)).1
  intro i
  obtain ⟨res, heq, hInv⟩ := run i
  have hlev := level_of _ _ hInv (sum_nonneg i)
  refine ⟨res, heq, hlev, by rw [hlev]; exact min_le_right _ _, ?_, ?_, ?_⟩
  · intro j hj
    obtain ⟨res', heq', hInv'⟩ := run j
    refine ⟨res', heq', ?_⟩
    rw [hlev, level_of _ _ hInv' (sum_nonneg j)]
    apply min_le_min _ le_rfl
    refine (div_le_div_right (by norm_num : (0:α) < 480)).mpr ?_
    exact_mod_cast take_sum_mono ns (fun m hm => (hns m hm).1) j i hj
  · intro hge
    obtain ⟨-, -, -, -, hcase⟩ := hInv
    rcases hcase with ⟨hc, -, -⟩ | ⟨-, hrate⟩
    · omega
    · refine ⟨hrate, ?_⟩
      rw [hlev, min_eq_right]
      rw [one_le_div (by norm_num : (0:α) < 480)]
      exact_mod_cast hge
  · intro hlt
    obtain ⟨-, -, -, -, hcase⟩ := hInv
    rcases hcase with ⟨-, hrate, hamp⟩ | ⟨hc, -⟩
    · exact ⟨hrate, hamp⟩
    · omega

unseal Rat.inv Rat.mul Rat.add Rat.sub Rat.ofScientific in
/-- C3 witnessed over `ℚ` on thirty 16-frame blocks (exactly the 480-sample
attack duration). -/
theorem C3_witness :
    (∀ m ∈ List.replicate 30 (16 : ℤ), 0 < m ∧ m ≤ ((bankQ 5).length : ℤ)) ∧
    (∀ i : ℕ,
      ∃ res, playAll (Note.init bankQ 5) ((List.replicate 30 (16 : ℤ)).take i) =
          .ok (some res) ∧
        attackLevel res.2 =
          min (((((List.replicate 30 (16 : ℤ)).take i).sum : ℤ) : ℚ) / 480) 1 ∧
        attackLevel res.2 ≤ 1 ∧
        (∀ j : ℕ, j ≤ i →
          ∃ res', playAll (Note.init bankQ 5)
              ((List.replicate 30 (16 : ℤ)).take j) = .ok (some res') ∧
            attackLevel res'.2 ≤ attackLevel res.2) ∧
        (480 ≤ ((List.replicate 30 (16 : ℤ)).take i).sum →
          res.2.attack_rate = none ∧ attackLevel res.2 = 1) ∧
        (((List.replicate 30 (16 : ℤ)).take i).sum < 480 →
          res.2.attack_rate = some (1/480) ∧
          res.2.attack_amplitude =
            (((((List.replicate 30 (16 : ℤ)).take i).sum : ℤ)) : ℚ) / 480)) :=
  ⟨by decide, C3_attack_envelope bankQ 5 (List.replicate 30 (16 : ℤ)) (by decide)⟩

/-! ### Claim C4: phase continuity -/

/-- Two consecutive wrap-around reads concatenate to a single read when the
total stays within one table length. -/
theorem extract_append (tb : List α) (t a b : ℤ) (ha : 0 < a) (hb : 0 < b)
    (hab : a + b ≤ (tb.length : ℤ)) :
    extract tb t a ++ extract tb (t + a) b = extract tb t (a + b) := by
  rw [extract_eq_map tb t a ha (by omega), extract_eq_map tb (t + a) b hb (by omega),
    extract_eq_map tb t (a + b) (by omega) hab,
    show (a + b).toNat = a.toNat + b.toNat by omega, List.range_add,
    List.map_append, List.map_map]
  congr 1
  apply List.map_congr_left
  intro i hi
  simp only [Function.comp]
  have hcast : ((a.toNat + i : ℕ) : ℤ) = a + i := by
    push_cast [Int.toNat_of_nonneg (le_of_lt ha)]
    ring
  congr 2
  rw [hcast]
  ring

/-- A voice with both envelope branches inactive renders any positive block
sequence as the single wrap-around read of the total (as long as the total
stays within one table length), finishing with its phase advanced by the
total. -/
theorem playAll_raw (n : Note α) (ns : List ℤ)
    (hcond : (truthy n.release_rate && !n.held) = false)
    (hatk : n.attack_rate = none) (hne : ns ≠ [])
    (hpos : ∀ m ∈ ns, 0 < m) (hsum : ns.sum ≤ (n.wave_table.length : ℤ)) :
    playAll n ns = .ok (some (extract n.wave_table n.t ns.sum,
      { n with t := n.t + ns.sum })) := by
  induction ns generalizing n with
  | nil => exact absurd rfl hne
  | cons m rest ih =>
    have hm : 0 < m := hpos m (by simp)
    have hrest_nonneg : 0 ≤ rest.sum := by
      apply List.sum_nonneg
      intro x hx
      exact le_of_lt (hpos x (by simp [hx]))
    have hsum2 : m + rest.sum ≤ (n.wave_table.length : ℤ) := by
      simpa using hsum
    have hN : 0 < n.wave_table.length := by
      have : (0 : ℤ) < (n.wave_table.length : ℤ) := by omega
      exact_mod_cast this
    have hplay := play_raw n m hcond hatk hN
    by_cases hr : rest = []
    · subst hr
      simp [playAll, hplay]
    · have hrest_pos : 0 < rest.sum :=
        List.sum_pos rest (fun x hx => hpos x (by simp [hx])) hr
      have hrec := ih { n with t := n.t + m } hcond hatk hr
        (fun x hx => hpos x (by simp [hx]))
        (by
          show rest.sum ≤ (n.wave_table.length : ℤ)
          omega)
      simp only [playAll, hplay, hrec]
      rw [extract_append n.wave_table n.t m rest.sum hm hrest_pos hsum2]
      simp only [List.sum_cons, add_assoc]

/-- C4 counterexample: a sustained (attack completed, never released) voice
on a 20-sample table renders two 16-frame blocks as 32 samples, but a
single 32-frame call wraps incorrectly (`(t + 32) % 20 = 12`) and returns
only 12 samples — the chunked and unchunked sample sequences differ. -/
theorem C4_counterexample :
    noteSus.release_rate = none ∧ noteSus.attack_rate = none ∧
    noteSus.held = false ∧
    playAll noteSus [16, 16] ≠ playAll noteSus [(16 : ℤ) + 16] := by decide

/-- C4 amended: for a voice whose attack has completed and that was never
released, rendering consecutive positive blocks produces the sample sequence
of a single render call of the total count — provided that total does not
exceed the wavetable length (beyond it, the single call's wrap-around read
truncates; and during an active envelope ramp the per-block linear
interpolation makes chunking observable). -/
theorem C4_amended_phase_continuity (n : Note α) (ns : List ℤ)
    (hrel : n.release_rate = none) (hatk : n.attack_rate = none)
    (hne : ns ≠ []) (hpos : ∀ m ∈ ns, 0 < m)
    (hsum : ns.sum ≤ (n.wave_table.length : ℤ)) :
    playAll n ns = playAll n [ns.sum] := by
  have hcond : (truthy n.release_rate && !n.held) = false := by
    rw [hrel]
    simp [truthy]
  have hpos_sum : 0 < ns.sum := List.sum_pos ns hpos hne
  rw [playAll_raw n ns hcond hatk hne hpos hsum,
    playAll_raw n [ns.sum] hcond hatk (by simp)
      (by intro m hm; rw [List.mem_singleton] at hm; omega)
      (by simpa using hsum)]
  simp

/-- C4 amended, witnessed on a sustained voice rendering 16 + 4 frames
against a single 20-frame call (the full table length). -/
theorem C4_witness :
    (noteSus.release_rate = none ∧ noteSus.attack_rate = none ∧
      (∀ m ∈ [(16 : ℤ), 4], 0 < m) ∧
      ([(16 : ℤ), 4].sum ≤ (noteSus.wave_table.length : ℤ))) ∧
    playAll noteSus [16, 4] = playAll noteSus [[(16 : ℤ), 4].sum] :=
  ⟨⟨rfl, rfl, by decide, by decide⟩,
    C4_amended_phase_continuity noteSus [16, 4] rfl rfl (by decide) (by decide)
      (by decide)⟩

/-! ### Claim C5: frame_count ≤ 0 -/

/-- A zero-length read returns the whole table (`t_start = t_end` selects
the append branch, whose two parts rebuild the table). -/
theorem extract_zero_length (tb : List α) (t : ℤ) :
    (extract tb t 0).length = tb.length := by
  rw [extract_def]
  simp only [add_zero, lt_irrefl, if_false]
  by_cases hN : tb.length = 0
  · simp [hN]
  · have h0 : 0 ≤ t % (tb.length : ℤ) := Int.emod_nonneg t (by simpa using hN)
    have hlt : t % (tb.length : ℤ) < tb.length :=
      Int.emod_lt_of_pos t (by exact_mod_cast Nat.pos_of_ne_zero hN)
    simp only [List.length_append, List.length_drop, List.length_take]
    omega

/-- C5 counterexample: `process` with `frame_count = 0` is NOT a no-op
returning an empty block for every engine state: with an active sustained
voice the mix step raises (numpy shape mismatch: a zero-length read returns
the whole 20-sample table, which cannot be added into a 0-length
accumulator).  With no active voices it does return an empty block. -/
theorem C5_counterexample :
    output_callback bankQ { current_notes := [(5, noteSus)], sustaining := false }
      [] 0 = .error () ∧
    output_callback bankQ { current_notes := [], sustaining := false } [] 0 =
      .ok ({ current_notes := [], sustaining := false }, []) := by decide

/-- C5 amended: `process` never checks `frame_count`.  A negative
`frame_count` always raises (`np.zeros` rejects it).  `frame_count = 0`
returns an empty block when no voice is active, but raises as soon as an
active voice with at least 2 table samples and an inactive envelope renders
(its zero-length read returns the whole table, which cannot be added into
the empty accumulator). -/
theorem C5_amended_frame_count (bank : ℕ → List α) :
    (∀ (s : Engine α) (fc : ℤ), fc < 0 →
      output_callback bank s [] fc = .error ()) ∧
    (∀ b : Bool, output_callback bank { current_notes := [], sustaining := b }
      [] 0 = .ok ({ current_notes := [], sustaining := b }, [])) ∧
    (∀ (k : ℕ) (n : Note α) (b : Bool),
      (truthy n.release_rate && !n.held) = false → n.attack_rate = none →
      2 ≤ n.wave_table.length →
      output_callback bank { current_notes := [(k, n)], sustaining := b } [] 0 =
        .error ()) := by
  refine ⟨?_, ?_, ?_⟩
  · intro s fc hfc
    simp [output_callback, applyEvents, hfc]
  · intro b
    rfl
  · intro k n b hcond hatk hlen
    have hplay := play_raw n 0 hcond hatk (by omega)
    have hsound : (extract n.wave_table n.t 0).length = n.wave_table.length :=
      extract_zero_length n.wave_table n.t
    simp only [output_callback, applyEvents, if_neg (by omega : ¬(0 : ℤ) < 0),
      mixNotes, hplay]
    rw [show ((0 : ℤ).toNat) = 0 from rfl]
    simp only [List.replicate]
    simp only [addBlocks, hsound, List.length_nil]
    rw [if_neg (by omega), if_neg (by omega)]

/-- C5 amended, witnessed over `ℚ` at a concrete negative frame count, the
empty engine, and a one-voice engine. -/
theorem C5_witness :
    output_callback bankQ { current_notes := [], sustaining := false } []
      (-3) = .error () ∧
    output_callback bankQ { current_notes := [], sustaining := true } [] 0 =
      .ok ({ current_notes := [], sustaining := true }, []) ∧
    output_callback bankQ { current_notes := [(5, noteSus)], sustaining := true }
      [] 0 = .error () :=
  ⟨(C5_amended_frame_count bankQ).1 { current_notes := [], sustaining := false }
      (-3) (by decide),
    (C5_amended_frame_count bankQ).2.1 true,
    (C5_amended_frame_count bankQ).2.2 5 noteSus true (by decide) rfl (by decide)⟩

/-! ### Claim C8: the sustain invariant -/

/-- `release()` never touches the `held` flag. -/
theorem release_held (m : Note α) : m.release.held = m.held := by
  unfold Note.release
  by_cases h : truthy m.attack_rate = true
  · simp [h]
  · simp [h]

/-- Every entry of a dict after assignment is an old entry or the new
binding. -/
theorem mem_dictSet (k : ℕ) (v : Note α) (l : List (ℕ × Note α))
    (kn : ℕ × Note α) (h : kn ∈ dictSet k v l) : kn ∈ l ∨ kn = (k, v) := by
  unfold dictSet at h
  by_cases hi : (dictGet k l).isSome
  · rw [if_pos hi] at h
    obtain ⟨orig, horig, heq⟩ := List.mem_map.mp h
    by_cases hk : orig.1 = k
    · right
      rw [← heq, if_pos hk]
    · left
      rw [← heq, if_neg hk]
      exact horig
  · rw [if_neg hi] at h
    rcases List.mem_append.mp h with h1 | h2
    · left
      exact h1
    · right
      simpa using h2

/-- A successful dict lookup is a membership. -/
theorem dictGet_mem (k : ℕ) (n : Note α) (l : List (ℕ × Note α))
    (h : dictGet k l = some n) : (k, n) ∈ l := by
  induction l with
  | nil => simp [dictGet] at h
  | cons kn rest ih =>
    obtain ⟨k', n'⟩ := kn
    simp only [dictGet] at h
    by_cases hk : k' = k
    · rw [if_pos hk] at h
      subst hk
      cases h
      exact List.mem_cons_self _ _
    · rw [if_neg hk] at h
      exact List.mem_cons_of_mem _ (ih h)

/-- Looking up the key of an in-place dict replacement that found a prior
binding. -/
theorem dictGet_map_set_found (k : ℕ) (v n : Note α) (l : List (ℕ × Note α))
    (h : dictGet k l = some n) :
    dictGet k (l.map fun kn => if kn.1 = k then (k, v) else kn) = some v := by
  induction l with
  | nil => simp [dictGet] at h
  | cons kn rest ih =>
    obtain ⟨k', n'⟩ := kn
    rw [List.map_cons]
    by_cases hk : k' = k
    · show dictGet k ((if ((k', n') : ℕ × Note α).1 = k then ((k, v) : ℕ × Note α)
        else (k', n')) :: _) = _
      rw [if_pos (hk : ((k', n') : ℕ × Note α).1 = k)]
      show (if k = k then some v else _) = some v
      rw [if_pos rfl]
    · show dictGet k ((if ((k', n') : ℕ × Note α).1 = k then ((k, v) : ℕ × Note α)
        else (k', n')) :: _) = _
      rw [if_neg (hk : ¬((k', n') : ℕ × Note α).1 = k)]
      show (if k' = k then some n' else
        dictGet k (rest.map fun kn => if kn.1 = k then (k, v) else kn)) = some v
      rw [if_neg hk]
      apply ih
      rw [show dictGet k ((k', n') :: rest) =
        (if k' = k then some n' else dictGet k rest) from rfl, if_neg hk] at h
      exact h

/-- Appending a missing binding makes it findable. -/
theorem dictGet_append_missing (k : ℕ) (v : Note α) (l : List (ℕ × Note α))
    (h : dictGet k l = none) : dictGet k (l ++ [(k, v)]) = some v := by
  induction l with
  | nil => simp [dictGet]
  | cons kn rest ih =>
    obtain ⟨k', n'⟩ := kn
    simp only [dictGet] at h ⊢
    by_cases hk : k' = k
    · rw [if_pos hk] at h
      exact absurd h (by simp)
    · rw [if_neg hk] at h ⊢
      exact ih h

/-- Dict assignment followed by lookup of the same key returns the new
binding. -/
theorem dictGet_dictSet_self (k : ℕ) (v : Note α) (l : List (ℕ × Note α)) :
    dictGet k (dictSet k v l) = some v := by
  unfold dictSet
  cases hget : dictGet k l with
  | some n => rw [if_pos (by simp [hget]), dictGet_map_set_found k v n l hget]
  | none => rw [if_neg (by simp [hget]), dictGet_append_missing k v l hget]

/-- C8: the invariant "`sustaining = true` implies every active voice is
held" is preserved by the processing of every event; in particular, a voice
created by `note_on` while sustaining is immediately marked held. -/
theorem C8_sustain_invariant (bank : ℕ → List α) (s : Engine α) (e : Event)
    (s' : Engine α) (hInv : SustainInv s) (happ : applyEvent bank s e = .ok s') :
    SustainInv s' ∧
    (∀ k, e = .note_on k → s.sustaining = true →
      dictGet k s'.current_notes = some (Note.init bank k).hold) := by
  cases e with
  | note_on key =>
    simp only [applyEvent, Except.ok.injEq] at happ
    constructor
    · intro hsus kn hmem
      rw [← happ] at hsus hmem
      rcases mem_dictSet _ _ _ _ hmem with hold | hnew
      · exact hInv hsus kn hold
      · rw [hnew]
        have : s.sustaining = true := hsus
        simp [this]
    · intro k hk hsus
      cases hk
      rw [← happ]
      simp only
      rw [dictGet_dictSet_self]
      rw [if_pos hsus]
      rfl
  | note_off key =>
    cases hget : dictGet key s.current_notes with
    | none =>
      rw [applyEvent, hget] at happ
      exact absurd happ (by simp)
    | some n =>
      rw [applyEvent, hget] at happ
      simp only [Except.ok.injEq] at happ
      constructor
      · intro hsus kn hmem
        rw [← happ] at hsus hmem
        rcases mem_dictSet _ _ _ _ hmem with hold | hnew
        · exact hInv hsus kn hold
        · rw [hnew]
          simp only
          rw [release_held]
          exact hInv hsus (key, n) (dictGet_mem key n _ hget)
      · intro k hk
        exact absurd hk (by simp)
  | sustain_pedal v =>
    simp only [applyEvent, Except.ok.injEq] at happ
    constructor
    · intro hsus kn hmem
      rw [← happ] at hsus hmem
      simp only at hsus hmem
      obtain ⟨orig, horig, heq⟩ := List.mem_map.mp hmem
      rw [← heq]
      simp only
      rw [if_pos hsus]
      rfl
    · intro k hk
      exact absurd hk (by simp)

/-- C8 witnessed: a `note_on` processed from the startup state with the
pedal already down creates a voice that is immediately held, and the
invariant holds for the resulting state. -/
theorem C8_witness :
    SustainInv engineC8 ∧
    (∀ k, Event.note_on 5 = Event.note_on k → engineC8start.sustaining = true →
      dictGet k engineC8.current_notes = some (Note.init bankQ k).hold) :=
  C8_sustain_invariant bankQ engineC8start (Event.note_on 5) engineC8
    (fun _ kn hmem => absurd hmem (List.not_mem_nil kn)) rfl

/-! ### Claim C9, amended part: the output is bounded while at most 8
voices are active -/

/-- Every element of a `zipWith` comes from one element of each input. -/
theorem zipWith_mem {f : α → α → α} :
    ∀ {x y : List α} {c : α}, c ∈ List.zipWith f x y →
      ∃ a ∈ x, ∃ b ∈ y, c = f a b := by
  intro x
  induction x with
  | nil => intro y c h; simp at h
  | cons a x ih =>
    intro y c h
    cases y with
    | nil => simp at h
    | cons b y =>
      rw [List.zipWith_cons_cons] at h
      rcases List.mem_cons.mp h with h1 | h2
      · exact ⟨a, by simp, b, by simp, h1⟩
      · obtain ⟨a', ha', b', hb', hc⟩ := ih h2
        exact ⟨a', by simp [ha'], b', by simp [hb'], hc⟩

/-- Clipped scale factors lie in `[0, 1]`. -/
theorem clip01_mem (xs : List α) (c : α) (h : c ∈ clip01 xs) :
    0 ≤ c ∧ c ≤ 1 := by
  obtain ⟨x, -, hx⟩ := List.mem_map.mp h
  constructor
  · rw [← hx]
    exact le_min (le_max_right x 0) zero_le_one
  · rw [← hx]
    exact min_le_right _ 1

/-- Every sample of a wrap-around read is a table entry. -/
theorem extract_mem (tb : List α) (t fc : ℤ) (x : α) (h : x ∈ extract tb t fc) :
    x ∈ tb := by
  rw [extract_def] at h
  split at h
  · exact List.mem_of_mem_drop (List.mem_of_mem_take h)
  · rcases List.mem_append.mp h with h1 | h2
    · exact List.mem_of_mem_drop h1
    · exact List.mem_of_mem_take h2

/-- Scaling a block by clipped factors preserves an absolute bound. -/
theorem mulBlocks_bound (x y z : List α) (B : α) (hB : 0 ≤ B)
    (hx : ∀ a ∈ x, |a| ≤ B) (hy : ∀ c ∈ y, 0 ≤ c ∧ c ≤ 1)
    (h : mulBlocks x y = .ok z) : ∀ a ∈ z, |a| ≤ B := by
  have key : ∀ (a c : α), |a| ≤ B → 0 ≤ c → c ≤ 1 → |a * c| ≤ B := by
    intro a c ha hc0 hc1
    rw [abs_mul, abs_of_nonneg hc0]
    calc |a| * c ≤ B * 1 := mul_le_mul ha hc1 hc0 hB
    _ = B := mul_one B
  unfold mulBlocks at h
  split at h
  · obtain rfl : List.zipWith (· * ·) x y = z := by injection h
    intro a ha
    obtain ⟨a', ha', c, hc, rfl⟩ := zipWith_mem ha
    exact key a' c (hx a' ha') (hy c hc).1 (hy c hc).2
  · split at h
    · obtain rfl : y.map (fun v => x.headD 0 * v) = z := by injection h
      intro a ha
      obtain ⟨c, hc, rfl⟩ := List.mem_map.mp ha
      have hhead : |x.headD 0| ≤ B := by
        cases hx0 : x with
        | nil =>
          rw [List.headD_nil]
          simpa using hB
        | cons a' rest =>
          rw [List.headD_cons]
          exact hx a' (by rw [hx0]; simp)
      exact key (x.headD 0) c hhead (hy c hc).1 (hy c hc).2
    · split at h
      · obtain rfl : x.map (fun v => v * y.headD 0) = z := by injection h
        intro a ha
        obtain ⟨a', ha', rfl⟩ := List.mem_map.mp ha
        have hhead : 0 ≤ y.headD 0 ∧ y.headD 0 ≤ 1 := by
          cases hy0 : y with
          | nil => simp
          | cons c rest =>
            rw [List.headD_cons]
            exact hy c (by rw [hy0]; simp)
        exact key a' (y.headD 0) (hx a' ha') hhead.1 hhead.2
      · exact absurd h (by simp)

/-- The attack half of a render call preserves an absolute sample bound. -/
theorem attackStep_bound (n : Note α) (fc : ℤ) (out0 out : List α) (n' : Note α)
    (B : α) (hB : 0 ≤ B) (h0 : ∀ a ∈ out0, |a| ≤ B)
    (h : attackStep n fc out0 = .ok (out, n')) : ∀ a ∈ out, |a| ≤ B := by
  unfold attackStep at h
  split at h
  · dsimp only at h
    split at h
    · exact absurd h (by simp)
    · rename_i scale hscale
      split at h
      · exact absurd h (by simp)
      · rename_i out1 hout1
        have hbound := mulBlocks_bound out0 (clip01 scale) out1 B hB h0
          (clip01_mem scale) hout1
        split at h
        · obtain ⟨rfl, -⟩ : out1 = out ∧ _ = n' := by
            injection h with h'
            injection h'
            constructor <;> assumption
          exact hbound
        · obtain ⟨rfl, -⟩ : out1 = out ∧ _ = n' := by
            injection h with h'
            injection h'
            constructor <;> assumption
          exact hbound
  · obtain ⟨rfl, -⟩ : out0 = out ∧ _ = n' := by
      injection h with h'
      injection h'
      constructor <;> assumption
    exact h0

/-- A produced render block's samples never exceed the voice's table bound:
the read samples are table entries and each envelope scaling multiplies by
factors in `[0, 1]`. -/
theorem play_sound_bound (n : Note α) (fc : ℤ) (sound : List α) (n' : Note α)
    (B : α) (hB : 0 ≤ B) (htable : ∀ x ∈ n.wave_table, |x| ≤ B)
    (h : n.play fc = .ok (some sound, n')) : ∀ x ∈ sound, |x| ≤ B := by
  have hextract : ∀ x ∈ extract n.wave_table n.t fc, |x| ≤ B :=
    fun x hx => htable x (extract_mem _ _ _ x hx)
  unfold Note.play at h
  split at h
  · exact absurd h (by simp)
  · dsimp only at h
    split at h
    · split at h
      · exact absurd h (by simp)
      · split at h
        · exact absurd h (by simp)
        · rename_i scale hscale
          split at h
          · exact absurd h (by simp)
          · rename_i out1 hout1
            have hbound := mulBlocks_bound _ (clip01 scale) out1 B hB hextract
              (clip01_mem scale) hout1
            split at h
            · exact absurd h (by simp)
            · rename_i out2 n2 hstep
              simp only [Except.ok.injEq, Prod.mk.injEq, Option.some.injEq] at h
              obtain ⟨rfl, -⟩ := h
              have := attackStep_bound _ fc out1 out2 n2 B hB hbound hstep
              intro x hx
              exact this x hx
    · split at h
      · exact absurd h (by simp)
      · rename_i out2 n2 hstep
        simp only [Except.ok.injEq, Prod.mk.injEq, Option.some.injEq] at h
        obtain ⟨rfl, -⟩ := h
        have := attackStep_bound _ fc _ out2 n2 B hB hextract hstep
        intro x hx
        exact this x hx

/-- The mixing loop accumulates at most `B` more than the entry bound per
voice. -/
theorem mixNotes_bound (fc : ℤ) (B : α) (hB : 0 ≤ B) :
    ∀ (l : List (ℕ × Note α)) (acc : List α) (A : α) (hA : 0 ≤ A)
      (hacc : ∀ a ∈ acc, |a| ≤ A)
      (htables : ∀ kn ∈ l, ∀ x ∈ kn.2.wave_table, |x| ≤ B)
      (l' : List (ℕ × Note α)) (fin : List ℕ) (out : List α)
      (h : mixNotes fc acc l = .ok (l', fin, out)),
      ∀ x ∈ out, |x| ≤ A + l.length * B := by
  intro l
  induction l with
  | nil =>
    intro acc A hA hacc htables l' fin out h x hx
    simp only [mixNotes, Except.ok.injEq, Prod.mk.injEq] at h
    obtain ⟨-, -, rfl⟩ := h
    simpa using hacc x hx
  | cons kn rest ih =>
    intro acc A hA hacc htables l' fin out h
    obtain ⟨key, note⟩ := kn
    unfold mixNotes at h
    split at h
    · exact absurd h (by simp)
    · -- finished voice: accumulator unchanged
      rename_i note' hplay
      split at h
      · exact absurd h (by simp)
      · rename_i rest' fin' out' hrec
        simp only [Except.ok.injEq, Prod.mk.injEq] at h
        obtain ⟨-, -, rfl⟩ := h
        have := ih acc A hA hacc
          (fun kn hkn => htables kn (List.mem_cons_of_mem _ hkn)) rest' fin' out' hrec
        intro x hx
        calc |x| ≤ A + rest.length * B := this x hx
        _ ≤ A + (rest.length + 1) * B := by nlinarith
        _ = A + ((key, note) :: rest).length * B := by
          simp only [List.length_cons]
          push_cast
          ring_nf
    · -- sounding voice: one addBlocks
      rename_i sound note' hplay
      split at h
      · exact absurd h (by simp)
      · rename_i acc' hadd
        split at h
        · exact absurd h (by simp)
        · rename_i rest' fin' out' hrec
          simp only [Except.ok.injEq, Prod.mk.injEq] at h
          obtain ⟨-, -, rfl⟩ := h
          have hsound : ∀ x ∈ sound, |x| ≤ B :=
            play_sound_bound note fc sound note' B hB
              (htables (key, note) (by simp)) hplay
          have hacc' : ∀ a ∈ acc', |a| ≤ A + B := by
            unfold addBlocks at hadd
            split at hadd
            · obtain rfl : List.zipWith (· + ·) acc sound = acc' := by
                injection hadd
              intro a ha
              obtain ⟨a1, ha1, b1, hb1, rfl⟩ := zipWith_mem ha
              calc |a1 + b1| ≤ |a1| + |b1| := abs_add a1 b1
              _ ≤ A + B := add_le_add (hacc a1 ha1) (hsound b1 hb1)
            · split at hadd
              · obtain rfl : acc.map (fun v => v + sound.headD 0) = acc' := by
                  injection hadd
                intro a ha
                obtain ⟨a1, ha1, rfl⟩ := List.mem_map.mp ha
                have hhd : |sound.headD 0| ≤ B := by
                  cases hs : sound with
                  | nil => simpa using hB
                  | cons s srest =>
                    rw [List.headD_cons]
                    exact hsound s (by rw [hs]; simp)
                calc |a1 + sound.headD 0| ≤ |a1| + |sound.headD 0| := abs_add _ _
                _ ≤ A + B := add_le_add (hacc a1 ha1) hhd
              · exact absurd hadd (by simp)
          have := ih acc' (A + B) (by positivity) hacc'
            (fun kn hkn => htables kn (List.mem_cons_of_mem _ hkn)) rest' fin' out' hrec
          intro x hx
          calc |x| ≤ (A + B) + rest.length * B := this x hx
          _ = A + ((key, note) :: rest).length * B := by
            simp only [List.length_cons]
            push_cast
            ring

/-- C9 amended: a `process` call that only renders (no pending events) with
at most 8 active voices, each of whose wavetables is bounded by the 1/8
per-voice headroom of `make_sin`, returns samples in `[-1, 1]`. -/
theorem C9_amended_output_bound (bank : ℕ → List α) (s : Engine α)
    (fc : ℤ) (s' : Engine α) (out : List α)
    (hvoices : s.current_notes.length ≤ 8)
    (htables : ∀ kn ∈ s.current_notes, ∀ x ∈ kn.2.wave_table, |x| ≤ 1/8)
    (hcall : output_callback bank s [] fc = .ok (s', out)) :
    ∀ x ∈ out, -1 ≤ x ∧ x ≤ 1 := by
  unfold output_callback at hcall
  rw [show applyEvents bank s [] = Except.ok s from rfl] at hcall
  dsimp only at hcall
  split at hcall
  · exact absurd hcall (by simp)
  · split at hcall
    · exact absurd hcall (by simp)
    · rename_i notes' fin output hmix
      simp only [Except.ok.injEq, Prod.mk.injEq] at hcall
      obtain ⟨-, rfl⟩ := hcall
      have hzero : ∀ a ∈ List.replicate fc.toNat (0 : α), |a| ≤ 0 := by
        intro a ha
        rw [List.eq_of_mem_replicate ha]
        simp
      have hbound := mixNotes_bound fc (1/8 : α) (by norm_num)
        s.current_notes _ 0 le_rfl hzero htables notes' fin output hmix
      intro x hx
      have hx' : |x| ≤ 0 + s.current_notes.length * (1/8 : α) := hbound x hx
      have hcast : (s.current_notes.length : α) ≤ 8 := by exact_mod_cast hvoices
      have : |x| ≤ 1 := by
        calc |x| ≤ 0 + s.current_notes.length * (1/8 : α) := hx'
        _ ≤ 0 + 8 * (1/8 : α) := by nlinarith
        _ = 1 := by norm_num
      exact ⟨neg_le_of_abs_le this, le_of_abs_le this⟩

unseal Rat.inv Rat.mul Rat.add Rat.sub Rat.ofScientific in
/-- C9 amended, witnessed over `ℚ`: rendering one 1-frame block from an
engine with one sustained voice on a table bounded by 1/16 stays within
`[-1, 1]`. -/
theorem C9_witness :
    -1 ≤ ((1 : ℚ)/16) ∧ ((1 : ℚ)/16) ≤ 1 :=
  C9_amended_output_bound (fun _ => [(1 : ℚ)/16])
    { current_notes :=
        [(3, { t := 0, key := 3, release_rate := none, attack_rate := none
               attack_amplitude := 1, release_amplitude := 1
               wave_table := [(1 : ℚ)/16], held := false })]
      sustaining := false }
    1
    { current_notes :=
        [(3, { t := 1, key := 3, release_rate := none, attack_rate := none
               attack_amplitude := 1, release_amplitude := 1
               wave_table := [(1 : ℚ)/16], held := false })]
      sustaining := false }
    [(1 : ℚ)/16] (by decide)
    (by decide)
    (by decide) ((1 : ℚ)/16) (List.mem_singleton.mpr rfl)

/-! ### Claim C9, counterexample part: nine aligned voices overflow.
`make_sin` budgets a 1/8 amplitude per voice ("Allow for eight notes before
clipping"), so nine voices whose wavetable reads land near crests
simultaneously mix to a sample above 1.  The voices are manufactured through
the `note_on`/`note_off`-under-sustain route (each becomes a raw, envelope-free
voice immediately), and the crest alignment is arranged by choosing how many
blocks each voice has rendered. -/

theorem map_sin_linspaceL_getD (b : ℝ) (n i : ℕ) (h : i < n) :
    ((linspaceL 0 b n).map fun t => 0.125 * Real.sin t).getD i 0
      = 0.125 * Real.sin ((i : ℝ) * (b / ((n : ℝ) - 1))) := by
  have hlen : i < ((linspaceL 0 b n).map fun t => 0.125 * Real.sin t).length := by
    rw [List.length_map, linspaceL_length]
    exact h
  rw [List.getD_eq_getElem _ _ hlen, List.getElem_map]
  simp only [linspaceL, List.getElem_map, List.getElem_range, zero_add, sub_zero]

/-- Python `round` agrees with the target integer on the open half-unit
interval around it (which contains no half-integer, so the banker's-rounding
branch of `pyRound` is irrelevant). -/
theorem pyRound_eq (x : ℝ) (n : ℤ) (h1 : (n : ℝ) - 1/2 < x)
    (h2 : x < (n : ℝ) + 1/2) : pyRound x = n := by
  by_cases hf : Int.fract x = 1/2
  · exfalso
    simp only [Int.fract] at hf
    have hlt1 : (n : ℝ) - 1 < (⌊x⌋ : ℝ) := by linarith
    have hlt2 : ((⌊x⌋ : ℝ)) < (n : ℝ) := by linarith
    have hi1 : n - 1 < ⌊x⌋ := by exact_mod_cast hlt1
    have hi2 : ⌊x⌋ < n := by exact_mod_cast hlt2
    omega
  · rw [pyRound, if_neg hf, round_eq, Int.floor_eq_iff]
    push_cast
    constructor <;> linarith

/-- `make_sin` unfolded, given the two integer computations it performs. -/
theorem make_sin_eq (f : ℝ) (nc : ℤ) (n : ℕ)
    (hnc : ⌈(blocksize : ℝ) / ((sample_rate : ℝ) / f)⌉ = nc)
    (hns : pyRound ((nc : ℝ) * ((sample_rate : ℝ) / f)) = (n : ℤ)) :
    make_sin f = (linspaceL 0 ((nc : ℝ) * (2 * Real.pi)) n).map
      fun t => 0.125 * Real.sin t := by
  simp only [make_sin]
  rw [hnc, hns, Int.toNat_natCast]

/-- The wavetable bank entry for a key, given its frequency and the integer
computations of `make_sin` on that frequency. -/
theorem notes_eq_of (K : ℕ) (f : ℝ) (nc : ℤ) (n : ℕ)
    (hf : 440 * (2 : ℝ) ^ (((K : ℝ) - 69) / 12) = f)
    (hnc : ⌈(blocksize : ℝ) / ((sample_rate : ℝ) / f)⌉ = nc)
    (hns : pyRound ((nc : ℝ) * ((sample_rate : ℝ) / f)) = (n : ℤ)) :
    notes K = (linspaceL 0 ((nc : ℝ) * (2 * Real.pi)) n).map
      fun t => 0.125 * Real.sin t := by
  show make_sin (440 * (2 : ℝ) ^ (((K : ℝ) - 69) / 12)) = _
  rw [hf]
  exact make_sin_eq f nc n hnc hns

/-- A sine sampled within 1/52 of a turn of the crest is at least
`cos (π/26)`. -/
theorem sin_near_quarter (c : ℝ) (h : |c - 1/4| ≤ 1/52) :
    Real.cos (Real.pi / 26) ≤ Real.sin (2 * Real.pi * c) := by
  have habs : |Real.pi / 2 - 2 * Real.pi * c| ≤ Real.pi / 26 := by
    have he : Real.pi / 2 - 2 * Real.pi * c = 2 * Real.pi * (1/4 - c) := by ring
    rw [he, abs_mul, abs_of_nonneg (by positivity : (0:ℝ) ≤ 2 * Real.pi)]
    have h' : |1/4 - c| ≤ 1/52 := by rwa [abs_sub_comm]
    calc 2 * Real.pi * |1/4 - c| ≤ 2 * Real.pi * (1/52) :=
          mul_le_mul_of_nonneg_left h' (by positivity)
      _ = Real.pi / 26 := by ring
  rw [show Real.sin (2 * Real.pi * c) = Real.cos (Real.pi / 2 - 2 * Real.pi * c) from
    (Real.cos_pi_div_two_sub _).symm]
  nth_rewrite 2 [← Real.cos_abs]
  exact Real.cos_le_cos_of_nonneg_of_le_pi (abs_nonneg _)
    (by linarith [Real.pi_pos]) habs

theorem cos_pi_div_26_lb : (124/125 : ℝ) ≤ Real.cos (Real.pi / 26) := by
  have h := Real.one_sub_sq_div_two_le_cos (x := Real.pi / 26)
  have hpi : Real.pi < 3.15 := Real.pi_lt_d2
  have hpos := Real.pi_pos
  nlinarith

theorem zipWith_add_getD_zero (x y : List α) (hx : 0 < x.length)
    (hy : 0 < y.length) :
    (List.zipWith (· + ·) x y).getD 0 0 = x.getD 0 0 + y.getD 0 0 := by
  cases x with
  | nil => simp at hx
  | cons a xs =>
    cases y with
    | nil => simp at hy
    | cons b ys => rfl

theorem getD_zero_mem (l : List α) (h : 0 < l.length) : l.getD 0 0 ∈ l := by
  rw [List.getD_eq_getElem _ _ h]
  exact List.getElem_mem h

/-! Wavetables of the nine keys used by the counterexample.  Key `K` has
frequency `440·2^((K-69)/12)`; the keys are chosen 12 apart so the frequency
is rational and `ncycles`/`nsin` are exactly computable. -/

theorem notes21_eq : notes 21 =
    (linspaceL 0 (((1:ℤ) : ℝ) * (2 * Real.pi)) 1745).map
      fun t => 0.125 * Real.sin t := by
  refine notes_eq_of 21 (55/2) 1 1745 ?_ ?_ ?_
  · rw [show (((21:ℕ) : ℝ) - 69) / 12 = ((-4 : ℤ) : ℝ) by push_cast; norm_num,
      Real.rpow_intCast]
    norm_num
  · simp only [blocksize, sample_rate]
    rw [Int.ceil_eq_iff]
    push_cast
    constructor <;> norm_num
  · apply pyRound_eq <;> (simp only [sample_rate]; push_cast; norm_num)

theorem notes33_eq : notes 33 =
    (linspaceL 0 (((1:ℤ) : ℝ) * (2 * Real.pi)) 873).map
      fun t => 0.125 * Real.sin t := by
  refine notes_eq_of 33 55 1 873 ?_ ?_ ?_
  · rw [show (((33:ℕ) : ℝ) - 69) / 12 = ((-3 : ℤ) : ℝ) by push_cast; norm_num,
      Real.rpow_intCast]
    norm_num
  · simp only [blocksize, sample_rate]
    rw [Int.ceil_eq_iff]
    push_cast
    constructor <;> norm_num
  · apply pyRound_eq <;> (simp only [sample_rate]; push_cast; norm_num)

theorem notes45_eq : notes 45 =
    (linspaceL 0 (((1:ℤ) : ℝ) * (2 * Real.pi)) 436).map
      fun t => 0.125 * Real.sin t := by
  refine notes_eq_of 45 110 1 436 ?_ ?_ ?_
  · rw [show (((45:ℕ) : ℝ) - 69) / 12 = ((-2 : ℤ) : ℝ) by push_cast; norm_num,
      Real.rpow_intCast]
    norm_num
  · simp only [blocksize, sample_rate]
    rw [Int.ceil_eq_iff]
    push_cast
    constructor <;> norm_num
  · apply pyRound_eq <;> (simp only [sample_rate]; push_cast; norm_num)

theorem notes57_eq : notes 57 =
    (linspaceL 0 (((1:ℤ) : ℝ) * (2 * Real.pi)) 218).map
      fun t => 0.125 * Real.sin t := by
  refine notes_eq_of 57 220 1 218 ?_ ?_ ?_
  · rw [show (((57:ℕ) : ℝ) - 69) / 12 = ((-1 : ℤ) : ℝ) by push_cast; norm_num,
      Real.rpow_intCast]
    norm_num
  · simp only [blocksize, sample_rate]
    rw [Int.ceil_eq_iff]
    push_cast
    constructor <;> norm_num
  · apply pyRound_eq <;> (simp only [sample_rate]; push_cast; norm_num)

theorem notes69_eq : notes 69 =
    (linspaceL 0 (((1:ℤ) : ℝ) * (2 * Real.pi)) 109).map
      fun t => 0.125 * Real.sin t := by
  refine notes_eq_of 69 440 1 109 ?_ ?_ ?_
  · rw [show (((69:ℕ) : ℝ) - 69) / 12 = ((0 : ℤ) : ℝ) by push_cast; norm_num,
      Real.rpow_intCast]
    norm_num
  · simp only [blocksize, sample_rate]
    rw [Int.ceil_eq_iff]
    push_cast
    constructor <;> norm_num
  · apply pyRound_eq <;> (simp only [sample_rate]; push_cast; norm_num)

theorem notes81_eq : notes 81 =
    (linspaceL 0 (((1:ℤ) : ℝ) * (2 * Real.pi)) 55).map
      fun t => 0.125 * Real.sin t := by
  refine notes_eq_of 81 880 1 55 ?_ ?_ ?_
  · rw [show (((81:ℕ) : ℝ) - 69) / 12 = ((1 : ℤ) : ℝ) by push_cast; norm_num,
      Real.rpow_intCast]
    norm_num
  · simp only [blocksize, sample_rate]
    rw [Int.ceil_eq_iff]
    push_cast
    constructor <;> norm_num
  · apply pyRound_eq <;> (simp only [sample_rate]; push_cast; norm_num)

theorem notes93_eq : notes 93 =
    (linspaceL 0 (((1:ℤ) : ℝ) * (2 * Real.pi)) 27).map
      fun t => 0.125 * Real.sin t := by
  refine notes_eq_of 93 1760 1 27 ?_ ?_ ?_
  · rw [show (((93:ℕ) : ℝ) - 69) / 12 = ((2 : ℤ) : ℝ) by push_cast; norm_num,
      Real.rpow_intCast]
    norm_num
  · simp only [blocksize, sample_rate]
    rw [Int.ceil_eq_iff]
    push_cast
    constructor <;> norm_num
  · apply pyRound_eq <;> (simp only [sample_rate]; push_cast; norm_num)

theorem notes105_eq : notes 105 =
    (linspaceL 0 (((2:ℤ) : ℝ) * (2 * Real.pi)) 27).map
      fun t => 0.125 * Real.sin t := by
  refine notes_eq_of 105 3520 2 27 ?_ ?_ ?_
  · rw [show (((105:ℕ) : ℝ) - 69) / 12 = ((3 : ℤ) : ℝ) by push_cast; norm_num,
      Real.rpow_intCast]
    norm_num
  · simp only [blocksize, sample_rate]
    rw [Int.ceil_eq_iff]
    push_cast
    constructor <;> norm_num
  · apply pyRound_eq <;> (simp only [sample_rate]; push_cast; norm_num)

theorem notes117_eq : notes 117 =
    (linspaceL 0 (((3:ℤ) : ℝ) * (2 * Real.pi)) 20).map
      fun t => 0.125 * Real.sin t := by
  refine notes_eq_of 117 7040 3 20 ?_ ?_ ?_
  · rw [show (((117:ℕ) : ℝ) - 69) / 12 = ((4 : ℤ) : ℝ) by push_cast; norm_num,
      Real.rpow_intCast]
    norm_num
  · simp only [blocksize, sample_rate]
    rw [Int.ceil_eq_iff]
    push_cast
    constructor <;> norm_num
  · apply pyRound_eq <;> (simp only [sample_rate]; push_cast; norm_num)

theorem len21 : (notes 21).length = 1745 := by
  rw [notes21_eq, List.length_map, linspaceL_length]

theorem len33 : (notes 33).length = 873 := by
  rw [notes33_eq, List.length_map, linspaceL_length]

theorem len45 : (notes 45).length = 436 := by
  rw [notes45_eq, List.length_map, linspaceL_length]

theorem len57 : (notes 57).length = 218 := by
  rw [notes57_eq, List.length_map, linspaceL_length]

theorem len69 : (notes 69).length = 109 := by
  rw [notes69_eq, List.length_map, linspaceL_length]

theorem len81 : (notes 81).length = 55 := by
  rw [notes81_eq, List.length_map, linspaceL_length]

theorem len93 : (notes 93).length = 27 := by
  rw [notes93_eq, List.length_map, linspaceL_length]

theorem len105 : (notes 105).length = 27 := by
  rw [notes105_eq, List.length_map, linspaceL_length]

theorem len117 : (notes 117).length = 20 := by
  rw [notes117_eq, List.length_map, linspaceL_length]

/-! Wavetable entries the nine voices read at the probed sample: keys 21, 33
and 69 sit exactly on a crest, the other six within 1/52 turn of one. -/

theorem val21 : (notes 21).getD 436 0 = 0.125 := by
  rw [notes21_eq, map_sin_linspaceL_getD _ _ _ (by norm_num)]
  rw [show ((436:ℕ) : ℝ) * ((((1:ℤ) : ℝ) * (2 * Real.pi)) / (((1745:ℕ) : ℝ) - 1))
      = Real.pi / 2 by push_cast; ring]
  rw [Real.sin_pi_div_two, mul_one]

theorem val33 : (notes 33).getD 218 0 = 0.125 := by
  rw [notes33_eq, map_sin_linspaceL_getD _ _ _ (by norm_num)]
  rw [show ((218:ℕ) : ℝ) * ((((1:ℤ) : ℝ) * (2 * Real.pi)) / (((873:ℕ) : ℝ) - 1))
      = Real.pi / 2 by push_cast; ring]
  rw [Real.sin_pi_div_two, mul_one]

theorem val69 : (notes 69).getD 27 0 = 0.125 := by
  rw [notes69_eq, map_sin_linspaceL_getD _ _ _ (by norm_num)]
  rw [show ((27:ℕ) : ℝ) * ((((1:ℤ) : ℝ) * (2 * Real.pi)) / (((109:ℕ) : ℝ) - 1))
      = Real.pi / 2 by push_cast; ring]
  rw [Real.sin_pi_div_two, mul_one]

theorem val45 : (notes 45).getD 108 0 = 0.125 * Real.sin (2 * Real.pi * (36/145)) := by
  rw [notes45_eq, map_sin_linspaceL_getD _ _ _ (by norm_num)]
  refine congrArg (fun z => 0.125 * Real.sin z) ?_
  push_cast
  ring

theorem val57 : (notes 57).getD 54 0 = 0.125 * Real.sin (2 * Real.pi * (54/217)) := by
  rw [notes57_eq, map_sin_linspaceL_getD _ _ _ (by norm_num)]
  refine congrArg (fun z => 0.125 * Real.sin z) ?_
  push_cast
  ring

theorem val81 : (notes 81).getD 14 0 = 0.125 * Real.sin (2 * Real.pi * (7/27)) := by
  rw [notes81_eq, map_sin_linspaceL_getD _ _ _ (by norm_num)]
  refine congrArg (fun z => 0.125 * Real.sin z) ?_
  push_cast
  ring

theorem val93 : (notes 93).getD 7 0 = 0.125 * Real.sin (2 * Real.pi * (7/26)) := by
  rw [notes93_eq, map_sin_linspaceL_getD _ _ _ (by norm_num)]
  refine congrArg (fun z => 0.125 * Real.sin z) ?_
  push_cast
  ring

theorem val105 : (notes 105).getD 3 0 = 0.125 * Real.sin (2 * Real.pi * (3/13)) := by
  rw [notes105_eq, map_sin_linspaceL_getD _ _ _ (by norm_num)]
  refine congrArg (fun z => 0.125 * Real.sin z) ?_
  push_cast
  ring

theorem val117 : (notes 117).getD 8 0 = 0.125 * Real.sin (2 * Real.pi * (5/19)) := by
  rw [notes117_eq, map_sin_linspaceL_getD _ _ _ (by norm_num)]
  rw [show ((8:ℕ) : ℝ) * ((((3:ℤ) : ℝ) * (2 * Real.pi)) / (((20:ℕ) : ℝ) - 1))
      = 2 * Real.pi * (5/19) + 2 * Real.pi by push_cast; ring]
  rw [Real.sin_add_two_pi]

/-! Machinery: a `note_on`/`note_off` pair under sustain creates a raw voice,
and a render pass over raw voices returns the summed wavetable reads while
advancing every phase cursor by one block. -/

theorem rawNote_t (bank : ℕ → List α) (k : ℕ) (T : ℤ) :
    (rawNote bank k T).t = T := rfl

theorem rawNote_set_t (bank : ℕ → List α) (k : ℕ) (T X : ℤ) :
    ({ rawNote bank k T with t := X } : Note α) = rawNote bank k X := rfl

/-- Releasing a freshly created held voice (attack at amplitude 0 still
running) yields exactly the raw voice at phase 0. -/
theorem release_fresh (bank : ℕ → List α) (k : ℕ) :
    ({ Note.init bank k with held := true } : Note α).release = rawNote bank k 0 := by
  have hne : (1 : α) / (10 * (sample_rate : α) / 1000) ≠ 0 := by
    simp only [sample_rate]
    push_cast
    norm_num
  rw [Note.release]
  dsimp only
  rw [show ({ Note.init bank k with held := true } : Note α).attack_rate
      = some ((1 : α) / (10 * (sample_rate : α) / 1000)) from rfl]
  rw [truthy_some hne]
  rw [if_pos rfl]
  rfl

theorem dictGet_none_keys (k : ℕ) (l : List (ℕ × Note α))
    (h : dictGet k l = none) : ∀ kn ∈ l, kn.1 ≠ k := by
  induction l with
  | nil => intro kn hkn; exact absurd hkn (List.not_mem_nil kn)
  | cons kn' rest ih =>
    obtain ⟨k', n'⟩ := kn'
    intro kn hkn
    simp only [dictGet] at h
    by_cases hk : k' = k
    · rw [if_pos hk] at h
      exact absurd h (by simp)
    · rw [if_neg hk] at h
      rcases List.mem_cons.mp hkn with rfl | hkn'
      · exact hk
      · exact ih h kn hkn'

theorem map_set_id (k : ℕ) (v : Note α) (l : List (ℕ × Note α))
    (h : ∀ kn ∈ l, kn.1 ≠ k) :
    (l.map fun kn => if kn.1 = k then (k, v) else kn) = l := by
  induction l with
  | nil => rfl
  | cons kn rest ih =>
    simp only [List.map_cons]
    rw [if_neg (h kn (List.mem_cons_self _ _)),
      ih fun x hx => h x (List.mem_cons_of_mem _ hx)]

/-- Queueing `note_on k` then `note_off k` while sustaining, for a key with
no current voice, appends the raw voice for `k` at phase 0. -/
theorem apply_create (bank : ℕ → List α) (s : Engine α) (k : ℕ)
    (hsus : s.sustaining = true) (hmiss : dictGet k s.current_notes = none) :
    applyEvents bank s [.note_on k, .note_off k] =
      .ok ⟨s.current_notes ++ [(k, rawNote bank k 0)], s.sustaining⟩ := by
  have h1 : applyEvent bank s (.note_on k) =
      .ok { s with current_notes :=
        s.current_notes ++ [(k, { Note.init bank k with held := true })] } := by
    rw [applyEvent]
    dsimp only
    rw [hsus, if_pos rfl, dictSet, hmiss, if_neg (by simp)]
  have hget : dictGet k
      (s.current_notes ++ [(k, { Note.init bank k with held := true })])
      = some { Note.init bank k with held := true } :=
    dictGet_append_missing k _ s.current_notes hmiss
  have h2 : applyEvent bank
      { s with current_notes :=
        s.current_notes ++ [(k, { Note.init bank k with held := true })] }
      (.note_off k) =
      .ok ⟨s.current_notes ++ [(k, rawNote bank k 0)], s.sustaining⟩ := by
    rw [applyEvent]
    dsimp only
    rw [hget]
    dsimp only
    rw [dictSet, hget, if_pos Option.isSome_some, List.map_append,
      map_set_id k _ s.current_notes (dictGet_none_keys k s.current_notes hmiss)]
    simp only [List.map_cons, List.map_nil]
    rw [if_pos trivial, release_fresh]
  simp only [applyEvents, h1, h2]

/-- One mixing pass over raw voices: every voice contributes its raw
wavetable block to the accumulator and advances its phase; none finish. -/
theorem mixNotes_raw (l : List (ℕ × Note α)) :
    ∀ acc : List α, (∀ kn ∈ l, RawVoice kn.2) → acc.length = blocksize →
    mixNotes (blocksize : ℤ) acc l =
      .ok (l.map fun kn => (kn.1, { kn.2 with t := kn.2.t + (blocksize : ℤ) }),
        [],
        l.foldl (fun a kn =>
          List.zipWith (· + ·) a (extract kn.2.wave_table kn.2.t (blocksize : ℤ)))
          acc) := by
  induction l with
  | nil => intro acc _ _; simp [mixNotes]
  | cons kn rest ih =>
    intro acc hraw hlen
    obtain ⟨key, note⟩ := kn
    obtain ⟨hheld, hatk, hN⟩ := hraw (key, note) (List.mem_cons_self _ _)
    have hheld' : note.held = true := hheld
    have hatk' : note.attack_rate = none := hatk
    have hN' : (blocksize : ℤ) ≤ (note.wave_table.length : ℤ) := hN
    have hN0 : 0 < note.wave_table.length := by
      have hb : (0:ℤ) < (blocksize:ℤ) := by decide
      omega
    have hplay := play_raw note (blocksize : ℤ) (by rw [hheld']; simp) hatk' hN0
    have hext : (extract note.wave_table note.t (blocksize:ℤ)).length = blocksize := by
      rw [extract_length _ _ _ (by decide) hN']
      rfl
    have hadd : addBlocks acc (extract note.wave_table note.t (blocksize:ℤ))
        = .ok (List.zipWith (· + ·) acc
            (extract note.wave_table note.t (blocksize:ℤ))) := by
      rw [addBlocks, if_pos (by rw [hext, hlen])]
    have hlen' : (List.zipWith (· + ·) acc
        (extract note.wave_table note.t (blocksize:ℤ))).length = blocksize := by
      rw [List.length_zipWith, hlen, hext, min_self]
    simp only [mixNotes, hplay, hadd,
      ih _ (fun x hx => hraw x (List.mem_cons_of_mem _ hx)) hlen',
      List.map_cons, List.foldl_cons]

theorem filter_keys_nil (l : List (ℕ × Note α)) :
    (l.filter fun kn => decide (kn.1 ∉ ([] : List ℕ))) = l := by
  induction l with
  | nil => rfl
  | cons kn rest ih => simp [List.filter_cons, ih]

/-- A `process` call on an engine whose voices are all raw: after draining
the events, the call returns the summed raw blocks and advances every phase
cursor by one block. -/
theorem render_raw (bank : ℕ → List α) (s : Engine α) (events : List Event)
    (s1 : Engine α) (happ : applyEvents bank s events = .ok s1)
    (hraw : RawEngine s1) :
    output_callback bank s events (blocksize : ℤ) =
      .ok (advance (blocksize : ℤ) s1, rawMix s1) := by
  unfold output_callback
  rw [happ]
  dsimp only
  rw [if_neg (by decide : ¬ ((blocksize : ℤ) < 0)),
    show ((blocksize : ℤ)).toNat = blocksize from rfl,
    mixNotes_raw s1.current_notes (List.replicate blocksize 0) hraw.2 (by simp)]
  dsimp only
  rw [filter_keys_nil]
  rfl

theorem advance_advanceN (m : ℕ) (s : Engine α) :
    advance (blocksize : ℤ) (advanceN m s) = advanceN (m + 1) s := by
  simp only [advance, advanceN, List.map_map]
  refine congrArg (fun l => Engine.mk l s.sustaining) ?_
  apply List.map_congr_left
  intro kn _
  simp only [Function.comp_apply]
  refine congrArg (fun z => (kn.1, { kn.2 with t := z })) ?_
  push_cast
  ring

theorem advanceN_zero (s : Engine α) : advanceN 0 s = s := by
  have h : ∀ l : List (ℕ × Note α),
      (l.map fun kn =>
        (kn.1, { kn.2 with t := kn.2.t + (blocksize : ℤ) * ((0:ℕ) : ℤ) })) = l := by
    intro l
    induction l with
    | nil => rfl
    | cons kn rest ih =>
      simp only [List.map_cons, ih, List.cons.injEq, and_true]
      have ht : kn.2.t + (blocksize : ℤ) * ((0:ℕ) : ℤ) = kn.2.t := by
        push_cast
        ring
      rw [ht]
  show Engine.mk _ s.sustaining = s
  rw [h]

theorem rawEngine_advanceN (m : ℕ) (s : Engine α) (hs : RawEngine s) :
    RawEngine (advanceN m s) := by
  refine ⟨hs.1, ?_⟩
  intro kn hkn
  simp only [advanceN, List.mem_map] at hkn
  obtain ⟨kn', hkn', rfl⟩ := hkn
  obtain ⟨h1, h2, h3⟩ := hs.2 kn' hkn'
  exact ⟨h1, h2, h3⟩

theorem dictGet_advanceN_none (k : ℕ) (m : ℕ) (s : Engine α)
    (h : dictGet k s.current_notes = none) :
    dictGet k (advanceN m s).current_notes = none := by
  have hgen : ∀ l : List (ℕ × Note α), dictGet k l = none →
      dictGet k (l.map fun kn =>
        (kn.1, { kn.2 with t := kn.2.t + (blocksize : ℤ) * (m : ℤ) })) = none := by
    intro l
    induction l with
    | nil => intro _; rfl
    | cons kn rest ih =>
      obtain ⟨k', n'⟩ := kn
      intro hl
      simp only [dictGet] at hl
      simp only [List.map_cons, dictGet]
      by_cases hk : k' = k
      · rw [if_pos hk] at hl
        exact absurd hl (by simp)
      · rw [if_neg hk] at hl
        rw [if_neg hk]
        exact ih hl
  exact hgen s.current_notes h

/-- Free-running the engine (rendering with no pending events) preserves
reachability: one induction step per audio period. -/
theorem reach_advanceN_of_one (s : Engine ℝ) (hraw : RawEngine s)
    (m : ℕ) (h : Reach (advanceN 1 s)) : Reach (advanceN (m + 1) s) := by
  induction m with
  | zero => exact h
  | succ m ih =>
    have hr := render_raw notes (advanceN (m + 1) s) [] (advanceN (m + 1) s) rfl
      (rawEngine_advanceN (m + 1) s hraw)
    rw [advance_advanceN] at hr
    exact Reach.step ih (fun e he => absurd he (List.not_mem_nil e)) hr

/-- One creation segment of the counterexample schedule: from a reachable raw
engine, queue `note_on k`/`note_off k` (the creation call renders one block)
and then free-run `m` further calls. -/
theorem reach_chain_step (s : Engine ℝ) (k m : ℕ) (h : Reach s)
    (hraw : RawEngine s) (hk : k < 128)
    (hmiss : dictGet k s.current_notes = none)
    (hlen : (blocksize : ℤ) ≤ ((notes k).length : ℤ)) :
    Reach (advanceN (m + 1)
      ⟨s.current_notes ++ [(k, rawNote notes k 0)], s.sustaining⟩) ∧
    RawEngine (advanceN (m + 1)
      ⟨s.current_notes ++ [(k, rawNote notes k 0)], s.sustaining⟩) := by
  have hre : RawEngine
      (⟨s.current_notes ++ [(k, rawNote notes k 0)], s.sustaining⟩ : Engine ℝ) := by
    refine ⟨hraw.1, ?_⟩
    intro kn hkn
    rcases List.mem_append.mp hkn with h' | h'
    · exact hraw.2 kn h'
    · rw [List.mem_singleton.mp h']
      exact ⟨rfl, rfl, hlen⟩
  have happ := apply_create notes s k hraw.1 hmiss
  have hr := render_raw notes s [.note_on k, .note_off k] _ happ hre
  have hadv : advance (blocksize : ℤ)
      (⟨s.current_notes ++ [(k, rawNote notes k 0)], s.sustaining⟩ : Engine ℝ)
      = advanceN 1 ⟨s.current_notes ++ [(k, rawNote notes k 0)], s.sustaining⟩ := by
    rw [← advance_advanceN 0, advanceN_zero]
  rw [hadv] at hr
  have hwf : ∀ e ∈ [Event.note_on k, Event.note_off k], e.wf := by
    intro e he
    rcases List.mem_cons.mp he with rfl | he'
    · exact hk
    · rw [List.mem_singleton.mp he']
      exact hk
  exact ⟨reach_advanceN_of_one _ hre m (Reach.step h hwf hr),
    rawEngine_advanceN (m + 1) _ hre⟩

/-- The first sample of the mixed block of a raw render pass is the sum of
each voice's wavetable entry at its current phase. -/
theorem foldl_extract_getD (l : List (ℕ × Note α)) :
    ∀ acc : List α, (∀ kn ∈ l, RawVoice kn.2) → acc.length = blocksize →
    (l.foldl (fun a kn => List.zipWith (· + ·) a
      (extract kn.2.wave_table kn.2.t (blocksize : ℤ))) acc).getD 0 0
      = acc.getD 0 0 + (l.map fun kn =>
          kn.2.wave_table.getD ((kn.2.t % (kn.2.wave_table.length : ℤ)).toNat) 0).sum := by
  induction l with
  | nil => intro acc _ _; simp
  | cons kn rest ih =>
    intro acc hraw hlen
    obtain ⟨-, -, hN⟩ := hraw kn (List.mem_cons_self _ _)
    have hext : (extract kn.2.wave_table kn.2.t (blocksize:ℤ)).length = blocksize := by
      rw [extract_length _ _ _ (by decide) hN]
      rfl
    have hlen' : (List.zipWith (· + ·) acc
        (extract kn.2.wave_table kn.2.t (blocksize:ℤ))).length = blocksize := by
      rw [List.length_zipWith, hlen, hext, min_self]
    simp only [List.foldl_cons, List.map_cons, List.sum_cons]
    rw [ih _ (fun x hx => hraw x (List.mem_cons_of_mem _ hx)) hlen',
      zipWith_add_getD_zero _ _ (by rw [hlen]; decide) (by rw [hext]; decide),
      extract_getD_zero _ _ _ (by decide) hN]
    ring

theorem foldl_extract_length (l : List (ℕ × Note α)) :
    ∀ acc : List α, (∀ kn ∈ l, RawVoice kn.2) → acc.length = blocksize →
    (l.foldl (fun a kn => List.zipWith (· + ·) a
      (extract kn.2.wave_table kn.2.t (blocksize : ℤ))) acc).length = blocksize := by
  induction l with
  | nil => intro acc _ h; exact h
  | cons kn rest ih =>
    intro acc hraw hlen
    obtain ⟨-, -, hN⟩ := hraw kn (List.mem_cons_self _ _)
    have hext : (extract kn.2.wave_table kn.2.t (blocksize:ℤ)).length = blocksize := by
      rw [extract_length _ _ _ (by decide) hN]
      rfl
    simp only [List.foldl_cons]
    refine ih _ (fun x hx => hraw x (List.mem_cons_of_mem _ hx)) ?_
    rw [List.length_zipWith, hlen, hext, min_self]

theorem rawNote_wt (bank : ℕ → List α) (k : ℕ) (T : ℤ) :
    (rawNote bank k T).wave_table = bank k := rfl

/-- `reach_chain_step` with the resulting state rewritten into a concrete
literal. -/
theorem reach_chain_step' (s : Engine ℝ) (k m : ℕ) (s' : Engine ℝ)
    (h : Reach s) (hraw : RawEngine s) (hk : k < 128)
    (hmiss : dictGet k s.current_notes = none)
    (hlen : (blocksize : ℤ) ≤ ((notes k).length : ℤ))
    (heq : advanceN (m + 1)
      ⟨s.current_notes ++ [(k, rawNote notes k 0)], s.sustaining⟩ = s') :
    Reach s' ∧ RawEngine s' := by
  obtain ⟨h1, h2⟩ := reach_chain_step s k m h hraw hk hmiss hlen
  rw [heq] at h1 h2
  exact ⟨h1, h2⟩

/-- Pressing the sustain pedal at startup: the engine reaches the empty
sustaining state. -/
theorem reach_pedal : Reach (⟨[], true⟩ : Engine ℝ) := by
  have happ : applyEvents notes (⟨[], false⟩ : Engine ℝ) [.sustain_pedal 127]
      = .ok ⟨[], true⟩ := rfl
  have hre : RawEngine (⟨[], true⟩ : Engine ℝ) :=
    ⟨rfl, fun kn hkn => absurd hkn (List.not_mem_nil kn)⟩
  have hr := render_raw notes ⟨[], false⟩ [.sustain_pedal 127] ⟨[], true⟩ happ hre
  have hadv : advance (blocksize : ℤ) (⟨[], true⟩ : Engine ℝ) = ⟨[], true⟩ := rfl
  rw [hadv] at hr
  refine Reach.step Reach.init ?_ hr
  intro e he
  rw [List.mem_singleton.mp he]
  exact (by decide : (127:ℕ) < 128)

/-- The counterexample schedule realizes `engineC9`: press the pedal, then
create the nine raw voices at the audio periods that align their phase
cursors, free-running in between. -/
theorem reach_engineC9 : Reach engineC9 ∧ RawEngine engineC9 := by
  have hre0 : RawEngine (⟨[], true⟩ : Engine ℝ) :=
    ⟨rfl, fun kn hkn => absurd hkn (List.not_mem_nil kn)⟩
  have h1 := reach_chain_step' ⟨[], true⟩ 21 994
    ⟨[(21, rawNote notes 21 15920)], true⟩
    reach_pedal hre0 (by decide) rfl (by rw [len21]; decide)
    (by
      simp only [advanceN, List.nil_append, List.cons_append, List.map_cons,
        List.map_nil, rawNote_t, rawNote_set_t, blocksize]
      norm_num)
  have h2 := reach_chain_step' _ 33 277
    ⟨[(21, rawNote notes 21 20368), (33, rawNote notes 33 4448)], true⟩
    h1.1 h1.2 (by decide) rfl (by rw [len33]; decide)
    (by
      simp only [advanceN, List.nil_append, List.cons_append, List.map_cons,
        List.map_nil, rawNote_t, rawNote_set_t, blocksize]
      norm_num)
  have h3 := reach_chain_step' _ 69 13
    ⟨[(21, rawNote notes 21 20592), (33, rawNote notes 33 4672),
      (69, rawNote notes 69 224)], true⟩
    h2.1 h2.2 (by decide) rfl (by rw [len69]; decide)
    (by
      simp only [advanceN, List.nil_append, List.cons_append, List.map_cons,
        List.map_nil, rawNote_t, rawNote_set_t, blocksize]
      norm_num)
  have h4 := reach_chain_step' _ 81 14
    ⟨[(21, rawNote notes 21 20832), (33, rawNote notes 33 4912),
      (69, rawNote notes 69 464), (81, rawNote notes 81 240)], true⟩
    h3.1 h3.2 (by decide) rfl (by rw [len81]; decide)
    (by
      simp only [advanceN, List.nil_append, List.cons_append, List.map_cons,
        List.map_nil, rawNote_t, rawNote_set_t, blocksize]
      norm_num)
  have h5 := reach_chain_step' _ 45 14
    ⟨[(21, rawNote notes 21 21072), (33, rawNote notes 33 5152),
      (69, rawNote notes 69 704), (81, rawNote notes 81 480),
      (45, rawNote notes 45 240)], true⟩
    h4.1 h4.2 (by decide) rfl (by rw [len45]; decide)
    (by
      simp only [advanceN, List.nil_append, List.cons_append, List.map_cons,
        List.map_nil, rawNote_t, rawNote_set_t, blocksize]
      norm_num)
  have h6 := reach_chain_step' _ 93 1
    ⟨[(21, rawNote notes 21 21104), (33, rawNote notes 33 5184),
      (69, rawNote notes 69 736), (81, rawNote notes 81 512),
      (45, rawNote notes 45 272), (93, rawNote notes 93 32)], true⟩
    h5.1 h5.2 (by decide) rfl (by rw [len93]; decide)
    (by
      simp only [advanceN, List.nil_append, List.cons_append, List.map_cons,
        List.map_nil, rawNote_t, rawNote_set_t, blocksize]
      norm_num)
  have h7 := reach_chain_step' _ 57 4
    ⟨[(21, rawNote notes 21 21184), (33, rawNote notes 33 5264),
      (69, rawNote notes 69 816), (81, rawNote notes 81 592),
      (45, rawNote notes 45 352), (93, rawNote notes 93 112),
      (57, rawNote notes 57 80)], true⟩
    h6.1 h6.2 (by decide) rfl (by rw [len57]; decide)
    (by
      simp only [advanceN, List.nil_append, List.cons_append, List.map_cons,
        List.map_nil, rawNote_t, rawNote_set_t, blocksize]
      norm_num)
  have h8 := reach_chain_step' _ 105 8
    ⟨[(21, rawNote notes 21 21328), (33, rawNote notes 33 5408),
      (69, rawNote notes 69 960), (81, rawNote notes 81 736),
      (45, rawNote notes 45 496), (93, rawNote notes 93 256),
      (57, rawNote notes 57 224), (105, rawNote notes 105 144)], true⟩
    h7.1 h7.2 (by decide) rfl (by rw [len105]; decide)
    (by
      simp only [advanceN, List.nil_append, List.cons_append, List.map_cons,
        List.map_nil, rawNote_t, rawNote_set_t, blocksize]
      norm_num)
  exact reach_chain_step' _ 117 2 engineC9
    h8.1 h8.2 (by decide) rfl (by rw [len117]; decide)
    (by
      simp only [engineC9, advanceN, List.nil_append, List.cons_append,
        List.map_cons, List.map_nil, rawNote_t, rawNote_set_t, blocksize]
      norm_num)

/-- The first sample mixed from `engineC9` exceeds 1: three voices read a
crest sample `0.125` exactly and the six others read at least
`0.125·cos(π/26)`. -/
theorem rawMix_engineC9_head : 1 < (rawMix engineC9).getD 0 0 := by
  have hraw := (reach_engineC9).2.2
  have h := foldl_extract_getD engineC9.current_notes (List.replicate blocksize 0)
    hraw (by simp)
  rw [show rawMix engineC9 = engineC9.current_notes.foldl
      (fun a kn => List.zipWith (· + ·) a
        (extract kn.2.wave_table kn.2.t (blocksize : ℤ)))
      (List.replicate blocksize 0) from rfl, h]
  have e21 : (rawNote notes 21 (16 * 1336) : Note ℝ).wave_table.getD
      (((rawNote notes 21 (16 * 1336) : Note ℝ).t %
        ((rawNote notes 21 (16 * 1336) : Note ℝ).wave_table.length : ℤ)).toNat) 0
      = 0.125 := by
    rw [rawNote_wt, rawNote_t, len21,
      show ((16 * 1336 : ℤ) % ((1745:ℕ) : ℤ)).toNat = 436 from by decide]
    exact val21
  have e33 : (rawNote notes 33 (16 * 341) : Note ℝ).wave_table.getD
      (((rawNote notes 33 (16 * 341) : Note ℝ).t %
        ((rawNote notes 33 (16 * 341) : Note ℝ).wave_table.length : ℤ)).toNat) 0
      = 0.125 := by
    rw [rawNote_wt, rawNote_t, len33,
      show ((16 * 341 : ℤ) % ((873:ℕ) : ℤ)).toNat = 218 from by decide]
    exact val33
  have e69 : (rawNote notes 69 (16 * 63) : Note ℝ).wave_table.getD
      (((rawNote notes 69 (16 * 63) : Note ℝ).t %
        ((rawNote notes 69 (16 * 63) : Note ℝ).wave_table.length : ℤ)).toNat) 0
      = 0.125 := by
    rw [rawNote_wt, rawNote_t, len69,
      show ((16 * 63 : ℤ) % ((109:ℕ) : ℤ)).toNat = 27 from by decide]
    exact val69
  have e81 : (rawNote notes 81 (16 * 49) : Note ℝ).wave_table.getD
      (((rawNote notes 81 (16 * 49) : Note ℝ).t %
        ((rawNote notes 81 (16 * 49) : Note ℝ).wave_table.length : ℤ)).toNat) 0
      = 0.125 * Real.sin (2 * Real.pi * (7/27)) := by
    rw [rawNote_wt, rawNote_t, len81,
      show ((16 * 49 : ℤ) % ((55:ℕ) : ℤ)).toNat = 14 from by decide]
    exact val81
  have e45 : (rawNote notes 45 (16 * 34) : Note ℝ).wave_table.getD
      (((rawNote notes 45 (16 * 34) : Note ℝ).t %
        ((rawNote notes 45 (16 * 34) : Note ℝ).wave_table.length : ℤ)).toNat) 0
      = 0.125 * Real.sin (2 * Real.pi * (36/145)) := by
    rw [rawNote_wt, rawNote_t, len45,
      show ((16 * 34 : ℤ) % ((436:ℕ) : ℤ)).toNat = 108 from by decide]
    exact val45
  have e93 : (rawNote notes 93 (16 * 19) : Note ℝ).wave_table.getD
      (((rawNote notes 93 (16 * 19) : Note ℝ).t %
        ((rawNote notes 93 (16 * 19) : Note ℝ).wave_table.length : ℤ)).toNat) 0
      = 0.125 * Real.sin (2 * Real.pi * (7/26)) := by
    rw [rawNote_wt, rawNote_t, len93,
      show ((16 * 19 : ℤ) % ((27:ℕ) : ℤ)).toNat = 7 from by decide]
    exact val93
  have e57 : (rawNote notes 57 (16 * 17) : Note ℝ).wave_table.getD
      (((rawNote notes 57 (16 * 17) : Note ℝ).t %
        ((rawNote notes 57 (16 * 17) : Note ℝ).wave_table.length : ℤ)).toNat) 0
      = 0.125 * Real.sin (2 * Real.pi * (54/217)) := by
    rw [rawNote_wt, rawNote_t, len57,
      show ((16 * 17 : ℤ) % ((218:ℕ) : ℤ)).toNat = 54 from by decide]
    exact val57
  have e105 : (rawNote notes 105 (16 * 12) : Note ℝ).wave_table.getD
      (((rawNote notes 105 (16 * 12) : Note ℝ).t %
        ((rawNote notes 105 (16 * 12) : Note ℝ).wave_table.length : ℤ)).toNat) 0
      = 0.125 * Real.sin (2 * Real.pi * (3/13)) := by
    rw [rawNote_wt, rawNote_t, len105,
      show ((16 * 12 : ℤ) % ((27:ℕ) : ℤ)).toNat = 3 from by decide]
    exact val105
  have e117 : (rawNote notes 117 (16 * 3) : Note ℝ).wave_table.getD
      (((rawNote notes 117 (16 * 3) : Note ℝ).t %
        ((rawNote notes 117 (16 * 3) : Note ℝ).wave_table.length : ℤ)).toNat) 0
      = 0.125 * Real.sin (2 * Real.pi * (5/19)) := by
    rw [rawNote_wt, rawNote_t, len117,
      show ((16 * 3 : ℤ) % ((20:ℕ) : ℤ)).toNat = 8 from by decide]
    exact val117
  rw [show (List.replicate blocksize (0:ℝ)).getD 0 0 = 0 from rfl]
  simp only [engineC9, List.map_cons, List.map_nil, List.sum_cons, List.sum_nil]
  rw [e21, e33, e69, e81, e45, e93, e57, e105, e117]
  have b45 : Real.cos (Real.pi/26) ≤ Real.sin (2 * Real.pi * (36/145)) :=
    sin_near_quarter _ (by rw [abs_le]; constructor <;> norm_num)
  have b57 : Real.cos (Real.pi/26) ≤ Real.sin (2 * Real.pi * (54/217)) :=
    sin_near_quarter _ (by rw [abs_le]; constructor <;> norm_num)
  have b81 : Real.cos (Real.pi/26) ≤ Real.sin (2 * Real.pi * (7/27)) :=
    sin_near_quarter _ (by rw [abs_le]; constructor <;> norm_num)
  have b93 : Real.cos (Real.pi/26) ≤ Real.sin (2 * Real.pi * (7/26)) :=
    sin_near_quarter _ (by rw [abs_le]; constructor <;> norm_num)
  have b105 : Real.cos (Real.pi/26) ≤ Real.sin (2 * Real.pi * (3/13)) :=
    sin_near_quarter _ (by rw [abs_le]; constructor <;> norm_num)
  have b117 : Real.cos (Real.pi/26) ≤ Real.sin (2 * Real.pi * (5/19)) :=
    sin_near_quarter _ (by rw [abs_le]; constructor <;> norm_num)
  have hcos := cos_pi_div_26_lb
  linarith

/-- C9 counterexample: the claim that every sample of the block returned by
`process` lies in `[-1,1]` for every reachable engine state fails.  The
1/8 per-voice headroom of `make_sin` budgets for eight voices, but nine
voices are reachable (pedal down, nine `note_on`/`note_off` pairs) and a
schedule exists aligning all nine wavetable reads near crests, making a
mixed sample exceed 1. -/
theorem C9_counterexample :
    ∃ (s s' : Engine ℝ) (out : List ℝ) (x : ℝ),
      Reach s ∧
      output_callback notes s [] (blocksize : ℤ) = .ok (s', out) ∧
      x ∈ out ∧ 1 < x := by
  obtain ⟨hreach, hraw⟩ := reach_engineC9
  have hr := render_raw notes engineC9 [] engineC9 rfl hraw
  have hlen : (rawMix engineC9).length = blocksize :=
    foldl_extract_length engineC9.current_notes (List.replicate blocksize 0)
      hraw.2 (by simp)
  refine ⟨engineC9, advance (blocksize : ℤ) engineC9, rawMix engineC9,
    (rawMix engineC9).getD 0 0, hreach, hr, ?_, rawMix_engineC9_head⟩
  exact getD_zero_mem _ (by rw [hlen]; decide)

end Rhosy
